import Mathlib

/-!
# terraform-provider-bigippg: helpers of `bigippg/provider.go`

A shallow embedding of the string helpers (`parseF5Identifier`, `toCamelCase`,
`toSnakeCase`), of the collection adapters (`makeStringList`, `listToStringSlice`,
`makeStringSet`, `setToStringSlice`) and of the reflection based `mapEntity`, with
the properties the specification states about them.

The library code these functions call is embedded as far as they use it: the
functions of package strings, the three regular expressions (as the left-to-right
scans that `ReplaceAllString` and `ReplaceAllStringFunc` perform), `Value.Set` and
`Value.FieldByName` of package reflect, and `schema.Set` of the plugin SDK with its
hash function `schema.HashString` (CRC-32 of package hash/crc32).

Conventions of the embedding.

* A Go `string` is modelled by a Lean `String`, that is by its sequence of
  Unicode code points (a Go string holding valid UTF-8).  Every byte the
  modelled code compares against (`/`, `_`, ASCII letters and digits) is ASCII,
  and an ASCII byte never occurs inside a multi-byte UTF-8 sequence, so scanning
  code points and scanning bytes find the same occurrences.
* A call that panics is modelled by `Except.error p`, where `p : Panic` names the
  run-time panic; `Except.ok a` is a normal return of `a`.  None of the modelled
  functions has an `error` result in Go, and none recovers a panic.
* `mapEntity` mutates the record behind a pointer; the model passes the record
  explicitly and returns the record as it stands when the call ends, together
  with the panic that ended it, if any.
-/

namespace Bigippg

/-! ## Panics -/

/-- The run-time panics that the modelled code can raise. -/
inductive Panic where
  /-- Runtime error "index out of range [index] with length length". -/
  | indexOutOfRange (index length : Nat)
  /-- Failed type assertion `x.(T)` (a `*runtime.TypeAssertionError`). -/
  | typeAssertion
  /-- Package reflect, `&ValueError{"reflect.Value.Set", Invalid}`:
  "call of reflect.Value.Set on zero Value". -/
  | setOnZeroValue
  /-- Package reflect: "reflect.Value.Set using value obtained using unexported field". -/
  | setUnexported
  /-- Package reflect: "reflect.Set: value of type X is not assignable to type Y". -/
  | setNotAssignable
  deriving DecidableEq, Repr

instance instDecidableEqExcept {ε α : Type} [DecidableEq ε] [DecidableEq α] :
    DecidableEq (Except ε α)
  | .ok a, .ok b => if h : a = b then isTrue (by rw [h]) else isFalse (by intro e; cases e; exact h rfl)
  | .error a, .error b =>
    if h : a = b then isTrue (by rw [h]) else isFalse (by intro e; cases e; exact h rfl)
  | .ok _, .error _ => isFalse (by intro e; cases e)
  | .error _, .ok _ => isFalse (by intro e; cases e)

/-- Whether a call handed a result back to its caller (it did not panic). -/
def returnsToCaller {α : Type} : Except Panic α → Bool
  | .ok _ => true
  | .error _ => false

/-! ## Package strings -/

/-- Go `strings.HasPrefix(s, prefix)`. -/
def HasPrefix (s pre : List Char) : Bool := pre.isPrefixOf s

/-- Go `strings.TrimPrefix(s, prefix)`: `s` without the leading `prefix`, or `s`
itself when it does not start with `prefix`. -/
def TrimPrefix (s pre : List Char) : List Char :=
  if HasPrefix s pre then s.drop pre.length else s

/-- Go `strings.Index(s, sep)` for a one-character separator: the position of the
first occurrence, `none` standing for `-1`. -/
def Index (sep : Char) : List Char → Option Nat
  | [] => none
  | c :: cs => if c = sep then some 0 else (Index sep cs).map (· + 1)

/-- Go `strings.SplitN(s, sep, n)` for a one-character separator and `n ≥ 0`
(`genSplit`): at most `n` pieces, the last one being the unsplit remainder. -/
def SplitN (sep : Char) : List Char → Nat → List (List Char)
  | _, 0 => []
  | s, 1 => [s]
  | s, n + 2 =>
    match Index sep s with
    | none => [s]
    | some m => s.take m :: SplitN sep (s.drop (m + 1)) (n + 1)

/-- Go slice indexing `a[i]`, which panics when `i` is out of range. -/
def index {α : Type} (a : List α) (i : Nat) : Except Panic α :=
  match a.get? i with
  | some x => .ok x
  | none => .error (.indexOutOfRange i a.length)

/-! ## parseF5Identifier -/

/-- Source `parseF5Identifier`:
```go
if strings.HasPrefix(str, "/") {
    ary := strings.SplitN(strings.TrimPrefix(str, "/"), "/", 2)
    return ary[0], ary[1]
}
return "", str
``` -/
def parseF5Identifier (str : String) : Except Panic (String × String) :=
  if HasPrefix str.data ['/'] then
    let ary := SplitN '/' (TrimPrefix str.data ['/']) 2
    match index ary 0, index ary 1 with
    | .ok partition, .ok name => .ok (String.mk partition, String.mk name)
    | .error p, _ => .error p
    | .ok _, .error p => .error p
  else
    .ok ("", str)

/-! ## toCamelCase -/

/-- The character class `[A-Za-z]`. -/
def isAsciiLetter (c : Char) : Bool :=
  ('A' ≤ c && c ≤ 'Z') || ('a' ≤ c && c ≤ 'z')

/-- The character class `[A-Z]`. -/
def isAsciiUpper (c : Char) : Bool := 'A' ≤ c && c ≤ 'Z'

/-- The character class `[a-z]`. -/
def isAsciiLower (c : Char) : Bool := 'a' ≤ c && c ≤ 'z'

/-- The character class `[0-9]`. -/
def isAsciiDigit (c : Char) : Bool := '0' ≤ c && c ≤ '9'

/-- The replacement function passed to `ReplaceAllStringFunc` in `toCamelCase`:
`strings.ToUpper(strings.Replace(s, "_", "", -1))`.  It is only ever applied to a
match, which consists of ASCII letters and underscores, where `strings.ToUpper`
is ASCII upper-casing. -/
def camelRepl (s : List Char) : List Char :=
  (s.filter (· ≠ '_')).map Char.toUpper

/-- The matches of `_([A-Za-z])` replaced from left to right in the text after
position 0 (where `^` can no longer match); unmatched text is copied. -/
def camelRest : List Char → List Char
  | [] => []
  | [c] => [c]
  | c :: d :: cs =>
    if c = '_' ∧ isAsciiLetter d then camelRepl [c, d] ++ camelRest cs
    else c :: camelRest (d :: cs)

/-- The regular expression `(^[A-Za-z])|_([A-Za-z])` replaced over the whole
text by `regexp.ReplaceAllStringFunc`: leftmost matches, non-overlapping; the
first alternative can match at position 0 only. -/
def camelReplaceAll : List Char → List Char
  | [] => []
  | c :: cs =>
    if isAsciiLetter c then camelRepl [c] ++ camelRest cs
    else camelRest (c :: cs)

/-- Source `toCamelCase`. -/
def toCamelCase (str : String) : String :=
  String.mk (camelReplaceAll str.data)

/-- Every underscore of the text is immediately followed by an ASCII letter. -/
def UnderscoresBeforeLetters (l : List Char) : Prop :=
  ∀ a b, l = a ++ '_' :: b → ∃ d b', b = d :: b' ∧ isAsciiLetter d = true

/-- The capitalised word of the specification of `toCamelCase`: the first letter
upper-cased, every other letter unchanged. -/
def capitalizeWord : List Char → List Char
  | [] => []
  | c :: cs => c.toUpper :: cs

/-- A non-empty word of ASCII lower-case letters. -/
def IsLowerWord (w : List Char) : Prop :=
  w ≠ [] ∧ ∀ c ∈ w, isAsciiLower c = true

/-! ## toSnakeCase -/

/-- The tables of package `unicode` for code points above `0x7F`.  The package is
not part of the repository; the modelled code consults it through
`strings.ToLower`, `strings.Title` and the exportedness of a field name, and the
properties below hold for every choice of tables. -/
structure UnicodeTables where
  /-- The lower-case mapping `unicode.ToLower`. -/
  toLower : Char → Char
  /-- The title-case mapping `unicode.ToTitle`. -/
  toTitle : Char → Char
  /-- The predicate `unicode.IsLetter`. -/
  isLetter : Char → Bool
  /-- The predicate `unicode.IsDigit`. -/
  isDigit : Char → Bool
  /-- The predicate `unicode.IsSpace`. -/
  isSpace : Char → Bool
  /-- The predicate `unicode.IsUpper`. -/
  isUpper : Char → Bool

/-- Tables that leave every code point above `0x7F` alone and classify none of
them; used to evaluate the model on ASCII inputs. -/
def asciiTables : UnicodeTables where
  toLower := id
  toTitle := id
  isLetter := fun _ => false
  isDigit := fun _ => false
  isSpace := fun _ => false
  isUpper := fun _ => false

/-- Go `unicode.ToLower`: on ASCII, `A`..`Z` are shifted to `a`..`z` and every
other character is kept; above ASCII the tables decide. -/
def ToLowerRune (u : UnicodeTables) (r : Char) : Char :=
  if r.toNat ≤ 0x7F then r.toLower else u.toLower r

/-- Go `strings.ToLower`. -/
def ToLower (u : UnicodeTables) (s : List Char) : List Char := s.map (ToLowerRune u)

/-- The regular expression `(.)([A-Z][a-z]+)` replaced by `${1}_${2}` with
`regexp.ReplaceAllString`: leftmost matches, non-overlapping, the `[a-z]+`
greedy.  The flag tells that the scan stands inside the `[a-z]+` of a match,
whose further lower-case letters belong to `${2}`; a match starts at `c` when
`c` is not a newline (`.`), `d` is in `[A-Z]` and `e` is in `[a-z]`. -/
def firstCapReplaceAll : Bool → List Char → List Char
  | inRun, c :: d :: e :: cs =>
    if inRun && isAsciiLower c then c :: firstCapReplaceAll true (d :: e :: cs)
    else if c ≠ '\n' && isAsciiUpper d && isAsciiLower e then
      c :: '_' :: d :: e :: firstCapReplaceAll true cs
    else c :: firstCapReplaceAll false (d :: e :: cs)
  | _, cs => cs

/-- The regular expression `([a-z0-9])([A-Z])` replaced by `${1}_${2}` with
`regexp.ReplaceAllString`. -/
def allCapReplaceAll : List Char → List Char
  | c :: d :: cs =>
    if (isAsciiLower c || isAsciiDigit c) && isAsciiUpper d then
      c :: '_' :: d :: allCapReplaceAll cs
    else c :: allCapReplaceAll (d :: cs)
  | cs => cs

/-- Source `toSnakeCase`:
```go
snake := matchFirstCap.ReplaceAllString(str, "${1}_${2}")
snake = matchAllCap.ReplaceAllString(snake, "${1}_${2}")
return strings.ToLower(snake)
``` -/
def toSnakeCase (u : UnicodeTables) (str : String) : String :=
  let snake := firstCapReplaceAll false str.data
  let snake := allCapReplaceAll snake
  String.mk (ToLower u snake)

/-- The text with every underscore deleted. -/
def dropUnderscores (l : List Char) : List Char := l.filter (· ≠ '_')

/-- An ASCII letter or digit. -/
def IsAlnum (c : Char) : Prop := isAsciiLetter c = true ∨ isAsciiDigit c = true


/-! ## Package strings: Title -/

/-- Go `strings.isSeparator`: ASCII letters, digits and the underscore are no
separators, every other ASCII character is; above ASCII, letters and digits are no
separators and spaces are. -/
def isSeparator (u : UnicodeTables) (r : Char) : Bool :=
  if r.toNat ≤ 0x7F then
    !(isAsciiDigit r || isAsciiLower r || isAsciiUpper r || r = '_')
  else if u.isLetter r || u.isDigit r then false
  else u.isSpace r

/-- Go `unicode.ToTitle`: on ASCII, `a`..`z` are shifted to `A`..`Z` and every
other character is kept; above ASCII the tables decide. -/
def ToTitleRune (u : UnicodeTables) (r : Char) : Char :=
  if r.toNat ≤ 0x7F then r.toUpper else u.toTitle r

/-- The `strings.Map` of `strings.Title`, with the closure variable `prev`: a
character is mapped to title case when the previous one is a separator. -/
def titleFrom (u : UnicodeTables) : Char → List Char → List Char
  | _, [] => []
  | prev, r :: rs =>
    (if isSeparator u prev then ToTitleRune u r else r) :: titleFrom u r rs

/-- Go `strings.Title`; `prev` starts as a blank. -/
def Title (u : UnicodeTables) (s : String) : String :=
  String.mk (titleFrom u ' ' s.data)

/-! ## Package reflect -/

/-- The Go types of record fields and of dynamic values: `string`, `bool`, `int`,
slices `[]elem`, and the empty interface `interface{}`. -/
inductive GoType where
  | string
  | bool
  | int
  | slice (elem : GoType)
  | iface
  deriving DecidableEq, Repr

/-- A Go value as held in an `interface{}`: a string, a boolean, an integer, a slice
of static type `[]elem`, or the nil interface.  An element of a `[]interface{}` is
again such a value; an element of a `[]string` is a `str`. -/
inductive GoVal where
  | str (s : String)
  | bool (b : Bool)
  | int (n : Int)
  | slice (elem : GoType) (xs : List GoVal)
  | nil

/-- The dynamic type of a value, `none` for the nil interface (for which
`reflect.ValueOf` gives the zero `Value`). -/
def GoVal.dynType : GoVal → Option GoType
  | .str _ => some .string
  | .bool _ => some .bool
  | .int _ => some .int
  | .slice elem _ => some (.slice elem)
  | .nil => none

/-- Assignability as `Value.assignTo` decides it, among the modelled types:
identical types, or a destination of type `interface{}`. -/
def assignableTo (src dst : GoType) : Bool :=
  src == dst || dst == .iface

/-- The second half of `reflect.Value.Set(x)`: `x.mustBeExported()` panics on the
zero `Value`, then `x.assignTo` panics unless the type of `x` is assignable to the
destination type.  Gives the value to store. -/
def assignTo (dst : GoType) (x : GoVal) : Except Panic GoVal :=
  match x.dynType with
  | none => .error .setOnZeroValue
  | some t => if assignableTo t dst then .ok x else .error .setNotAssignable

/-- A field of a record: its name, its declared type and its current value. -/
structure Field where
  name : String
  type : GoType
  value : GoVal

/-- The struct behind the pointer handed to `mapEntity`
(`reflect.ValueOf(obj).Elem()`): its fields in declaration order; the struct
embeds no other struct. -/
abbrev Record := List Field

/-- Go `Value.FieldByName`: the first field with that name; `none` is the zero
`Value`, for which `IsValid` is false. -/
def FieldByName (val : Record) (name : String) : Option Field :=
  val.find? (fun f => f.name == name)

/-- Whether a field name is exported: its first character is an upper-case letter.
A `Value` got from an unexported field is read-only. -/
def isExported (u : UnicodeTables) (name : String) : Bool :=
  match name.data with
  | [] => false
  | c :: _ => if c.toNat ≤ 0x7F then isAsciiUpper c else u.isUpper c

/-- The first half of `reflect.Value.Set`, `v.mustBeAssignable()`, for the `Value`
of a field of an addressable struct: panics on the zero `Value` and on a field
that is not exported. -/
def mustBeAssignable (u : UnicodeTables) : Option Field → Except Panic Field
  | none => .error .setOnZeroValue
  | some f => if isExported u f.name then .ok f else .error .setUnexported

/-- The record with `x` stored in its first field called `name`. -/
def store : Record → String → GoVal → Record
  | [], _, _ => []
  | f :: fs, name, x =>
    if f.name = name then { f with value := x } :: fs else f :: store fs name x

/-- Go `f.Set(x)` on the `Value` `f` of a field of `val`: the record after the
assignment, or the panic. -/
def fieldSet (u : UnicodeTables) (val : Record) (f : Option Field) (x : GoVal) :
    Except Panic Record :=
  match mustBeAssignable u f with
  | .error p => .error p
  | .ok f =>
    match assignTo f.type x with
    | .error p => .error p
    | .ok y => .ok (store val f.name y)

/-! ## mapEntity -/

/-- The configuration map `map[string]interface{}`, as the list of its entries in
the order the `range` loop visits them.  The keys of a Go map are distinct. -/
abbrev ConfigMap := List (String × GoVal)

/-- Go map indexing `d[field]`: the value stored under the key, the nil interface
when the key is absent. -/
def ConfigMap.at (d : ConfigMap) (field : String) : GoVal :=
  match d.lookup field with
  | some v => v
  | none => .nil

/-- The loop `for i := 0; i < len(incoming); i++ { s.Index(i).Set(reflect.ValueOf(incoming[i])) }`
on the fresh slice `s` of element type `elem`: the elements of `s`, or the panic of
the first element that cannot be assigned. -/
def setElems (elem : GoType) : List GoVal → Except Panic (List GoVal)
  | [] => .ok []
  | x :: xs =>
    match assignTo elem x with
    | .error p => .error p
    | .ok y =>
      match setElems elem xs with
      | .error p => .error p
      | .ok ys => .ok (y :: ys)

/-- The body of the loop of `mapEntity` for the key `field`:
```go
f := val.FieldByName(strings.Title(field))
if f.IsValid() {
    if f.Kind() == reflect.Slice {
        incoming := d[field].([]interface{})
        s := reflect.MakeSlice(f.Type(), len(incoming), len(incoming))
        for i := 0; i < len(incoming); i++ {
            s.Index(i).Set(reflect.ValueOf(incoming[i]))
        }
        f.Set(s)
    } else {
        f.Set(reflect.ValueOf(d[field]))
    }
} else {
    f := val.FieldByName(strings.Title(toCamelCase(field)))
    f.Set(reflect.ValueOf(d[field]))
}
``` -/
def mapEntityField (u : UnicodeTables) (d : ConfigMap) (val : Record) (field : String) :
    Except Panic Record :=
  match FieldByName val (Title u field) with
  | some f =>
    match f.type with
    | .slice elem =>
      match d.at field with
      | .slice .iface incoming =>
        match setElems elem incoming with
        | .error p => .error p
        | .ok s => fieldSet u val (some f) (.slice elem s)
      | _ => .error .typeAssertion
    | _ => fieldSet u val (some f) (d.at field)
  | none =>
    fieldSet u val (FieldByName val (Title u (toCamelCase field))) (d.at field)

/-- The loop `for field := range d` over the keys in visiting order: the record
when the loop ends, with the panic that ended it, if any. -/
def mapEntityLoop (u : UnicodeTables) (d : ConfigMap) : List String → Record →
    Record × Option Panic
  | [], val => (val, none)
  | field :: rest, val =>
    match mapEntityField u d val field with
    | .error p => (val, some p)
    | .ok val' => mapEntityLoop u d rest val'

/-- Source `mapEntity`: the record behind `obj` after the call, and the panic that
ended the call, if any. -/
def mapEntity (u : UnicodeTables) (d : ConfigMap) (obj : Record) : Record × Option Panic :=
  mapEntityLoop u d (d.map Prod.fst) obj


/-- A configuration value matches a field of declared type `t`: for a sequence
field `[]elem`, it is a dynamic list (`[]interface{}`) whose elements all have the
dynamic type `elem`; for any other field, it has the dynamic type `t`. -/
def ValueMatches : GoType → GoVal → Prop
  | .slice elem, v => ∃ xs, v = .slice .iface xs ∧ ∀ x ∈ xs, x.dynType = some elem
  | t, v => v.dynType = some t

/-- The value a field of declared type `t` is expected to hold once the
configuration value `v` is assigned to it: for a sequence field, the slice of the
field's type with the elements of the dynamic list, in order; the value itself
otherwise. -/
def expectedValue : GoType → GoVal → GoVal
  | .slice elem, .slice _ xs => .slice elem xs
  | _, v => v

/-- The key with its first letter capitalised, as a field name. -/
def capitalized (k : String) : String := String.mk (capitalizeWord k.data)


/-- The record of the round-trip example of the specification,
`{Name string, Interval int, Tags []string}`, with zero values. -/
def exampleRecord : Record :=
  [⟨"Name", .string, .str ""⟩, ⟨"Interval", .int, .int 0⟩,
    ⟨"Tags", .slice .string, .slice .string []⟩]

/-- The configuration map of the round-trip example,
`{"name": "m1", "interval": 5, "tags": ["a","b"]}`. -/
def exampleConfig : ConfigMap :=
  [("name", .str "m1"), ("interval", .int 5), ("tags", .slice .iface [.str "a", .str "b"])]


/-! ## Collection adapters: lists -/

/-- Source `makeStringList`:
```go
ilist := make([]interface{}, len(*list))
for i, v := range *list {
    ilist[i] = v
}
return ilist
```
Element `i` of the result is the string `list[i]` held in an `interface{}`. -/
def makeStringList (list : List String) : List GoVal :=
  list.map GoVal.str

/-- The type assertion `v.(string)`, which panics unless the dynamic type of `v`
is `string`. -/
def assertString : GoVal → Except Panic String
  | .str s => .ok s
  | _ => .error .typeAssertion

/-- Source `listToStringSlice`:
```go
list := make([]string, len(s))
for i, v := range s {
    list[i] = v.(string)
}
return list
```
The elements are asserted from the first to the last; the first one that is no
string ends the call with a panic. -/
def listToStringSlice : List GoVal → Except Panic (List String)
  | [] => .ok []
  | v :: vs =>
    match assertString v with
    | .error p => .error p
    | .ok x =>
      match listToStringSlice vs with
      | .error p => .error p
      | .ok xs => .ok (x :: xs)

/-- The dynamic value is string-typed. -/
def GoVal.isString : GoVal → Bool
  | .str _ => true
  | _ => false


/-! ## Packages hash/crc32 and helper/hashcode -/

/-- The bytes of a Go string, `[]byte(s)`: the UTF-8 encoding of its code points. -/
def stringBytes (s : String) : List Nat :=
  s.data.flatMap (fun c => (String.utf8EncodeChar c).map UInt8.toNat)

/-- One round of the inner loop of `crc32.simpleMakeTable`, for the reversed IEEE
polynomial `0xedb88320`:
`if crc&1 == 1 { crc = (crc >> 1) ^ poly } else { crc >>= 1 }`. -/
def crcShift (crc : Nat) : Nat :=
  if crc % 2 = 1 then (crc >>> 1) ^^^ 0xedb88320 else crc >>> 1

/-- Entry `i` of `crc32.IEEETable`: eight rounds on `uint32(i)`. -/
def IEEETable (i : Nat) : Nat := crcShift^[8] i

/-- Go `crc32.simpleUpdate`:
```go
crc = ^crc
for _, v := range p {
    crc = tab[byte(crc)^v] ^ (crc >> 8)
}
return ^crc
``` -/
def simpleUpdate (crc : Nat) (p : List Nat) : Nat :=
  (p.foldl (fun crc v => IEEETable ((crc % 256) ^^^ v) ^^^ (crc >>> 8))
    (crc ^^^ 0xffffffff)) ^^^ 0xffffffff

/-- Go `crc32.ChecksumIEEE`. -/
def ChecksumIEEE (p : List Nat) : Nat := simpleUpdate 0 p

/-- Package hashcode, `hashcode.String(s)`: `int(crc32.ChecksumIEEE([]byte(s)))`,
which is not negative where `int` has 64 bits. -/
def hashcodeString (s : String) : Int := (ChecksumIEEE (stringBytes s) : Nat)

/-! ## Package schema: Set -/

/-- Go `schema.HashString`: `hashcode.String(v.(string))`. -/
def HashString (v : GoVal) : Except Panic Int :=
  match assertString v with
  | .error p => .error p
  | .ok s => .ok (hashcodeString s)

/-- The set of package schema, `schema.Set`, as its map `m map[string]interface{}`
from hash code to item: the entries, with distinct codes, in the order they were
added. -/
abbrev SchemaSet := List (String × GoVal)

/-- Go `(*Set).hash`: the code of an item, `strconv.Itoa` of the absolute value of
`s.F(item)`. -/
def SchemaSet.hash (F : GoVal → Except Panic Int) (item : GoVal) : Except Panic String :=
  match F item with
  | .error p => .error p
  | .ok code => .ok (toString (if code < 0 then -code else code))

/-- Go `(*Set).Add`: the item is stored under its code unless the code is taken,
```go
code := s.hash(item)
if _, ok := s.m[code]; !ok {
    s.m[code] = item
}
``` -/
def SchemaSet.Add (F : GoVal → Except Panic Int) (s : SchemaSet) (item : GoVal) :
    Except Panic SchemaSet :=
  match SchemaSet.hash F item with
  | .error p => .error p
  | .ok code =>
    match s.lookup code with
    | some _ => .ok s
    | none => .ok (s ++ [(code, item)])

/-- The loop `for _, i := range items { s.Add(i) }` of `schema.NewSet`. -/
def SchemaSet.addAll (F : GoVal → Except Panic Int) : SchemaSet → List GoVal →
    Except Panic SchemaSet
  | s, [] => .ok s
  | s, i :: items =>
    match SchemaSet.Add F s i with
    | .error p => .error p
    | .ok s' => SchemaSet.addAll F s' items

/-- Go `schema.NewSet(f, items)`. -/
def NewSet (F : GoVal → Except Panic Int) (items : List GoVal) : Except Panic SchemaSet :=
  SchemaSet.addAll F [] items

/-- Go `(*Set).Len`: `len(s.m)`. -/
def SchemaSet.Len (s : SchemaSet) : Nat := s.length

/-- Go string comparison `a <= b`, byte-wise lexicographic, on the code points. -/
def bytesLE : List Char → List Char → Bool
  | [], _ => true
  | _ :: _, [] => false
  | a :: as, b :: bs => a.toNat < b.toNat || (a.toNat == b.toNat && bytesLE as bs)

/-- Go `(*Set).listCode`: the codes of the set, sorted as strings. -/
def SchemaSet.listCode (s : SchemaSet) : List String :=
  (s.map Prod.fst).insertionSort (fun a b => bytesLE a.data b.data = true)

/-- Go `(*Set).List`: the items in the order of their sorted codes,
`for i, k := range s.listCode() { result[i] = s.m[k] }`. -/
def SchemaSet.List (s : SchemaSet) : List GoVal :=
  s.listCode.map (fun k => ConfigMap.at s k)

/-! ## Collection adapters: sets -/

/-- Source `makeStringSet`:
```go
ilist := make([]interface{}, len(*list))
for i, v := range *list {
    ilist[i] = v
}
return schema.NewSet(schema.HashString, ilist)
``` -/
def makeStringSet (list : List String) : Except Panic SchemaSet :=
  NewSet HashString (list.map GoVal.str)

/-- Source `setToStringSlice`:
```go
list := make([]string, s.Len())
for i, v := range s.List() {
    list[i] = v.(string)
}
return list
```
The loop is the one of `listToStringSlice`, run over `s.List()`, which has
`s.Len()` elements. -/
def setToStringSlice (s : SchemaSet) : Except Panic (List String) :=
  listToStringSlice s.List

/-- The round trip of the set adapters, `setToStringSlice(makeStringSet(l))`. -/
def setRoundTrip (l : List String) : Except Panic (List String) :=
  match makeStringSet l with
  | .error p => .error p
  | .ok s => setToStringSlice s

/-- The code under which `schema.Set` stores the string `x` when its hash function
is `schema.HashString`. -/
def stringCode (x : String) : String :=
  toString (if hashcodeString x < 0 then -hashcodeString x else hashcodeString x)


/-- The entry of the map of a `schema.Set` that holds the string `x`. -/
def stringEntry (x : String) : String × GoVal := (stringCode x, GoVal.str x)


/-- The name of the field a key resolves to in a record: `strings.Title(k)` when
the record has a field of that name, `strings.Title(toCamelCase(k))` otherwise. -/
def resolvedName (u : UnicodeTables) (val : Record) (k : String) : String :=
  match FieldByName val (Title u k) with
  | some _ => Title u k
  | none => Title u (toCamelCase k)

/-- What `FieldByName` tells about a record apart from the values: for a field
name, the name and the declared type of the field found, if any. -/
def shapeOf (val : Record) (name : String) : Option (String × GoType) :=
  (FieldByName val name).map (fun f => (f.name, f.type))

/-- The checks of `f.Set(x)` in terms of the name and type of `f`: the name of
the field assigned and the value stored, or the panic. -/
def setTarget (u : UnicodeTables) : Option (String × GoType) → GoVal →
    Except Panic (String × GoVal)
  | none, _ => .error .setOnZeroValue
  | some (n, t), x =>
    if isExported u n then
      match assignTo t x with
      | .error p => .error p
      | .ok y => .ok (n, y)
    else .error .setUnexported

/-- The assignment that the body of the loop of `mapEntity` makes for a key, in
terms of the names and types of the record alone: the name of the field assigned
and the value stored, or the panic. -/
def fieldTarget (u : UnicodeTables) (d : ConfigMap) (sh : String → Option (String × GoType))
    (field : String) : Except Panic (String × GoVal) :=
  match sh (Title u field) with
  | some (n, t) =>
    match t with
    | .slice elem =>
      match d.at field with
      | .slice .iface incoming =>
        match setElems elem incoming with
        | .error p => .error p
        | .ok s => setTarget u (some (n, t)) (.slice elem s)
      | _ => .error .typeAssertion
    | _ => setTarget u (some (n, t)) (d.at field)
  | none => setTarget u (sh (Title u (toCamelCase field))) (d.at field)


/-- A word of camel case: one ASCII upper-case letter followed by one or more ASCII
lower-case letters. -/
def IsCamelWord (w : List Char) : Prop :=
  ∃ c cs, w = c :: cs ∧ isAsciiUpper c = true ∧ cs ≠ [] ∧ ∀ x ∈ cs, isAsciiLower x = true


/-! # Properties -/

/-! ## Lemmas: package strings -/

theorem Index_eq_none {sep : Char} {s : List Char} (h : sep ∉ s) : Index sep s = none := by
  induction s with
  | nil => rfl
  | cons c cs ih =>
    have hc : c ≠ sep := fun e => h (e ▸ List.mem_cons_self c cs)
    have hcs : sep ∉ cs := fun m => h (List.mem_cons_of_mem c m)
    simp [Index, hc, ih hcs]

theorem Index_append_sep {sep : Char} (a b : List Char) (h : sep ∉ a) :
    Index sep (a ++ sep :: b) = some a.length := by
  induction a with
  | nil => simp [Index]
  | cons c cs ih =>
    have hc : c ≠ sep := fun e => h (e ▸ List.mem_cons_self c cs)
    have hcs : sep ∉ cs := fun m => h (List.mem_cons_of_mem c m)
    simp [Index, hc, ih hcs]

theorem Index_none_not_mem {sep : Char} {s : List Char} (h : Index sep s = none) : sep ∉ s := by
  induction s with
  | nil => simp
  | cons c cs ih =>
    by_cases hc : c = sep
    · simp [Index, hc] at h
    · simp only [Index, hc, if_false, Option.map_eq_none'] at h
      simp [Ne.symm hc, ih h]

theorem Index_some_mem {sep : Char} {s : List Char} {m : Nat} (h : Index sep s = some m) :
    sep ∈ s := by
  by_contra hn
  rw [Index_eq_none hn] at h
  cases h

theorem parse_data_slash_none (str : String) (r : List Char) (hs : str.data = '/' :: r)
    (hr : '/' ∉ r) : parseF5Identifier str = .error (.indexOutOfRange 1 1) := by
  simp [parseF5Identifier, hs, HasPrefix, TrimPrefix, SplitN, Index_eq_none hr, index]

theorem parse_data_slash_some (str : String) (r : List Char) (m : Nat)
    (hs : str.data = '/' :: r) (hr : Index '/' r = some m) :
    parseF5Identifier str = .ok (String.mk (r.take m), String.mk (r.drop (m + 1))) := by
  simp [parseF5Identifier, hs, HasPrefix, TrimPrefix, SplitN, hr, index]

theorem parse_data_noslash (str : String) (h : ∀ r, str.data ≠ '/' :: r) :
    parseF5Identifier str = .ok ("", str) := by
  have hp : HasPrefix str.data ['/'] = false := by
    cases hd : str.data with
    | nil => rfl
    | cons c cs =>
      have hc : c ≠ '/' := fun e => h cs (by rw [hd, e])
      simp [HasPrefix, List.isPrefixOf, Ne.symm hc]
  simp [parseF5Identifier, hp]

/-! ## parseF5Identifier -/

/-- C1: a path `/p/n` whose partition `p` holds no separator parses to `(p, n)`;
the name `n` is kept verbatim, further separators included. -/
theorem parseF5Identifier_partition_name (p n : String) (h : '/' ∉ p.data) :
    parseF5Identifier ("/" ++ p ++ "/" ++ n) = .ok (p, n) := by
  have hd : ("/" ++ p ++ "/" ++ n).data = '/' :: (p.data ++ '/' :: n.data) := by
    simp [String.data_append]
  have ht : (p.data ++ '/' :: n.data).take p.data.length = p.data := by simp
  have hr : (p.data ++ '/' :: n.data).drop (p.data.length + 1) = n.data := by
    rw [← List.drop_drop]; simp
  rw [parse_data_slash_some _ _ _ hd (Index_append_sep _ _ h), ht, hr]

theorem parseF5Identifier_partition_name_witness :
    '/' ∉ "Common".data ∧
      parseF5Identifier ("/" ++ "Common" ++ "/" ++ "my-monitor") = .ok ("Common", "my-monitor") ∧
      parseF5Identifier "/Common/my-monitor" = .ok ("Common", "my-monitor") ∧
      parseF5Identifier "/Common/a/b" = .ok ("Common", "a/b") :=
  ⟨by decide, parseF5Identifier_partition_name "Common" "my-monitor" (by decide),
    by decide, by decide⟩

/-- C2: a path that does not start with the separator (the empty path included)
parses to the empty partition and the whole path as name. -/
theorem parseF5Identifier_bare_name (s : String) (h : s.data.head? ≠ some '/') :
    parseF5Identifier s = .ok ("", s) := by
  apply parse_data_noslash
  intro r hr
  rw [hr] at h
  exact h rfl

theorem parseF5Identifier_bare_name_witness :
    "my-monitor".data.head? ≠ some '/' ∧
      parseF5Identifier "my-monitor" = .ok ("", "my-monitor") ∧
      parseF5Identifier "" = .ok ("", "") ∧
      parseF5Identifier "a/b" = .ok ("", "a/b") :=
  ⟨by decide, parseF5Identifier_bare_name "my-monitor" (by decide), by decide, by decide⟩

/-- C3, as stated, fails: on `/onlypartition` nothing is returned to the caller,
neither a pair nor an error value; the call panics with "index out of range [1]
with length 1". -/
theorem parseF5Identifier_onlypartition_panics :
    returnsToCaller (parseF5Identifier "/onlypartition") = false ∧
      parseF5Identifier "/onlypartition" = .error (.indexOutOfRange 1 1) := by
  decide

/-- C3, amended: `parseF5Identifier` does not return exactly when its input starts
with `/` and the rest after that one `/` holds no further `/`; it then panics with
"index out of range [1] with length 1"; on every other input it returns a pair. -/
theorem parseF5Identifier_panics_iff (s : String) :
    (returnsToCaller (parseF5Identifier s) = false ↔ ∃ r, s.data = '/' :: r ∧ '/' ∉ r) ∧
    (parseF5Identifier s = .error (.indexOutOfRange 1 1) ↔ ∃ r, s.data = '/' :: r ∧ '/' ∉ r) ∧
    ((∃ r, s.data = '/' :: r ∧ '/' ∉ r) ∨ ∃ pn, parseF5Identifier s = .ok pn) := by
  by_cases h : ∃ r, s.data = '/' :: r
  · obtain ⟨r, hr⟩ := h
    cases hi : Index '/' r with
    | none =>
      have hn : '/' ∉ r := Index_none_not_mem hi
      have he := parse_data_slash_none s r hr hn
      refine ⟨?_, ?_, ?_⟩
      · rw [he]; exact ⟨fun _ => ⟨r, hr, hn⟩, fun _ => rfl⟩
      · exact ⟨fun _ => ⟨r, hr, hn⟩, fun _ => he⟩
      · exact Or.inl ⟨r, hr, hn⟩
    | some m =>
      have hm : '/' ∈ r := Index_some_mem hi
      have he := parse_data_slash_some s r m hr hi
      have hno : ¬ ∃ r, s.data = '/' :: r ∧ '/' ∉ r := by
        rintro ⟨r', hr', hn'⟩
        rw [hr] at hr'
        cases hr'
        exact hn' hm
      refine ⟨?_, ?_, ?_⟩
      · rw [he]; exact ⟨fun hf => (by cases hf), fun hx => absurd hx hno⟩
      · rw [he]; exact ⟨fun hf => (by cases hf), fun hx => absurd hx hno⟩
      · exact Or.inr ⟨_, he⟩
  · have hn : ∀ r, s.data ≠ '/' :: r := fun r hr => h ⟨r, hr⟩
    have he := parse_data_noslash s hn
    have hno : ¬ ∃ r, s.data = '/' :: r ∧ '/' ∉ r := fun ⟨r, hr, _⟩ => hn r hr
    refine ⟨?_, ?_, ?_⟩
    · rw [he]; exact ⟨fun hf => (by cases hf), fun hx => absurd hx hno⟩
    · rw [he]; exact ⟨fun hf => (by cases hf), fun hx => absurd hx hno⟩
    · exact Or.inr ⟨_, he⟩

/-! ## Lemmas: ASCII characters -/

theorem ascii_forall (P : Char → Prop) (h : ∀ n : Fin 128, P (Char.ofNat n)) (c : Char)
    (hc : c.toNat < 128) : P c := by
  have := h ⟨c.toNat, hc⟩
  simpa using this

theorem isAsciiLetter_toNat {c : Char} (h : isAsciiLetter c = true) : c.toNat < 128 := by
  simp only [isAsciiLetter, Bool.or_eq_true, Bool.and_eq_true, decide_eq_true_eq] at h
  rcases h with ⟨_, h⟩ | ⟨_, h⟩
  · have : c.toNat ≤ 'Z'.toNat := h
    have : 'Z'.toNat = 90 := rfl
    omega
  · have : c.toNat ≤ 'z'.toNat := h
    have : 'z'.toNat = 122 := rfl
    omega

theorem isAsciiLetter_of_lower {c : Char} (h : isAsciiLower c = true) : isAsciiLetter c = true := by
  simp only [isAsciiLower] at h
  simp [isAsciiLetter, h]

theorem isAsciiLetter_of_upper {c : Char} (h : isAsciiUpper c = true) : isAsciiLetter c = true := by
  simp only [isAsciiUpper] at h
  simp [isAsciiLetter, h]

theorem isAsciiLetter_ne_underscore {c : Char} (h : isAsciiLetter c = true) : c ≠ '_' := by
  rintro rfl
  revert h
  decide

theorem toUpper_ne_underscore {c : Char} (h : isAsciiLetter c = true) : c.toUpper ≠ '_' := by
  have key : ∀ n : Fin 128,
      isAsciiLetter (Char.ofNat n) = true → (Char.ofNat n).toUpper ≠ '_' := by decide
  exact ascii_forall (fun c => isAsciiLetter c = true → c.toUpper ≠ '_') key c
    (isAsciiLetter_toNat h) h

/-! ## Lemmas: toCamelCase -/

theorem camelRepl_letter {c : Char} (h : isAsciiLetter c = true) : camelRepl [c] = [c.toUpper] := by
  simp [camelRepl, isAsciiLetter_ne_underscore h]

theorem camelRepl_underscore_letter {d : Char} (h : isAsciiLetter d = true) :
    camelRepl ['_', d] = [d.toUpper] := by
  simp [camelRepl, isAsciiLetter_ne_underscore h]

theorem camelRest_cons_of_ne {c : Char} (h : c ≠ '_') (l : List Char) :
    camelRest (c :: l) = c :: camelRest l := by
  cases l with
  | nil => simp [camelRest]
  | cons d cs => simp [camelRest, h]

theorem camelRest_underscore_letter {d : Char} (h : isAsciiLetter d = true) (l : List Char) :
    camelRest ('_' :: d :: l) = d.toUpper :: camelRest l := by
  simp [camelRest, h, camelRepl_underscore_letter h]

theorem camelRest_append_of_lower (w : List Char) (hw : ∀ c ∈ w, isAsciiLower c = true)
    (l : List Char) : camelRest (w ++ l) = w ++ camelRest l := by
  induction w with
  | nil => rfl
  | cons c cs ih =>
    have hc : c ≠ '_' := isAsciiLetter_ne_underscore (isAsciiLetter_of_lower (hw c (by simp)))
    rw [List.cons_append, camelRest_cons_of_ne hc, ih (fun x hx => hw x (by simp [hx]))]
    rfl

theorem underscoresBeforeLetters_nil : UnderscoresBeforeLetters [] := by
  intro a b h
  simp at h

theorem underscoresBeforeLetters_cons (c : Char) (l : List Char) :
    UnderscoresBeforeLetters (c :: l) ↔
      (c = '_' → ∃ d l', l = d :: l' ∧ isAsciiLetter d = true) ∧ UnderscoresBeforeLetters l := by
  constructor
  · intro h
    refine ⟨?_, ?_⟩
    · intro hc
      exact h [] l (by simp [hc])
    · intro a b hab
      exact h (c :: a) b (by simp [hab])
  · rintro ⟨h1, h2⟩ a b hab
    cases a with
    | nil =>
      simp only [List.nil_append, List.cons.injEq] at hab
      obtain ⟨hc, rfl⟩ := hab
      exact h1 hc
    | cons x a =>
      simp only [List.cons_append, List.cons.injEq] at hab
      exact h2 a b hab.2

theorem camelRest_no_underscore_iff (l : List Char) :
    '_' ∉ camelRest l ↔ UnderscoresBeforeLetters l := by
  induction l using camelRest.induct with
  | case1 => simp [camelRest, underscoresBeforeLetters_nil]
  | case2 c =>
    rw [underscoresBeforeLetters_cons]
    simp [camelRest, underscoresBeforeLetters_nil]
    exact ⟨fun h e => h e.symm, fun h e => h e.symm⟩
  | case3 c d cs h ih =>
    obtain ⟨rfl, hd⟩ := h
    rw [camelRest_underscore_letter hd, underscoresBeforeLetters_cons,
      underscoresBeforeLetters_cons, ← ih]
    have h1 := toUpper_ne_underscore hd
    have h2 := isAsciiLetter_ne_underscore hd
    simp [h1, h2, hd, Ne.symm h1]
  | case4 c d cs h ih =>
    have hr : camelRest (c :: d :: cs) = c :: camelRest (d :: cs) := by
      simp only [camelRest, h, if_false]
    rw [hr, underscoresBeforeLetters_cons, ← ih]
    have : (c = '_' → ∃ e l', d :: cs = e :: l' ∧ isAsciiLetter e = true) ↔ ¬ c = '_' := by
      constructor
      · intro hx hc
        obtain ⟨e, l', he, hl⟩ := hx hc
        cases he
        exact h ⟨hc, hl⟩
      · intro hx hc
        exact absurd hc hx
    rw [this]
    simp
    exact fun _ => ⟨fun h e => h e.symm, fun h e => h e.symm⟩

theorem camelReplaceAll_no_underscore_iff (l : List Char) :
    '_' ∉ camelReplaceAll l ↔ UnderscoresBeforeLetters l := by
  cases l with
  | nil => simp [camelReplaceAll, underscoresBeforeLetters_nil]
  | cons c cs =>
    by_cases hc : isAsciiLetter c = true
    · have h1 := toUpper_ne_underscore hc
      have h2 := isAsciiLetter_ne_underscore hc
      simp only [camelReplaceAll, hc, if_true, camelRepl_letter hc]
      rw [underscoresBeforeLetters_cons, ← camelRest_no_underscore_iff]
      simp [h2, Ne.symm h1]
    · simp only [camelReplaceAll, hc]
      exact camelRest_no_underscore_iff (c :: cs)

theorem intercalate_underscore_cons (w : List Char) (ws : List (List Char)) :
    List.intercalate ['_'] (w :: ws) = w ++ (ws.map ('_' :: ·)).flatten := by
  induction ws generalizing w with
  | nil => simp [List.intercalate, List.intersperse]
  | cons v vs ih =>
    have := ih v
    simp only [List.intercalate, List.intersperse, List.flatten_cons, List.map_cons] at this ⊢
    rw [this]
    simp

theorem camelRest_words (ws : List (List Char)) (hw : ∀ w ∈ ws, IsLowerWord w) :
    camelRest (ws.map ('_' :: ·)).flatten = (ws.map capitalizeWord).flatten := by
  induction ws with
  | nil => rfl
  | cons w ws ih =>
    obtain ⟨hne, hl⟩ := hw w (by simp)
    cases w with
    | nil => exact absurd rfl hne
    | cons d ds =>
      have hd : isAsciiLetter d = true := isAsciiLetter_of_lower (hl d (by simp))
      simp only [List.map_cons, List.flatten_cons, List.cons_append, capitalizeWord]
      rw [camelRest_underscore_letter hd,
        camelRest_append_of_lower ds (fun c hc => hl c (by simp [hc])),
        ih (fun v hv => hw v (by simp [hv]))]

theorem camelReplaceAll_words (words : List (List Char)) (hw : ∀ w ∈ words, IsLowerWord w) :
    camelReplaceAll (List.intercalate ['_'] words) = (words.map capitalizeWord).flatten := by
  cases words with
  | nil => rfl
  | cons w ws =>
    obtain ⟨hne, hl⟩ := hw w (by simp)
    cases w with
    | nil => exact absurd rfl hne
    | cons d ds =>
      have hd : isAsciiLetter d = true := isAsciiLetter_of_lower (hl d (by simp))
      rw [intercalate_underscore_cons]
      simp only [List.cons_append, camelReplaceAll, hd, if_true, camelRepl_letter hd,
        List.map_cons, List.flatten_cons, capitalizeWord, List.nil_append]
      rw [camelRest_append_of_lower ds (fun c hc => hl c (by simp [hc])),
        camelRest_words ws (fun v hv => hw v (by simp [hv]))]

theorem capitalizeWord_no_underscore {w : List Char} (hw : IsLowerWord w) :
    '_' ∉ capitalizeWord w := by
  obtain ⟨hne, hl⟩ := hw
  cases w with
  | nil => exact absurd rfl hne
  | cons d ds =>
    have hd : isAsciiLetter d = true := isAsciiLetter_of_lower (hl d (by simp))
    simp only [capitalizeWord, List.mem_cons, not_or]
    refine ⟨Ne.symm (toUpper_ne_underscore hd), ?_⟩
    intro hm
    exact isAsciiLetter_ne_underscore (isAsciiLetter_of_lower (hl '_' (by simp [hm]))) rfl

/-! ## toCamelCase -/

/-- C7: on non-empty words of ASCII lower-case letters joined by single
underscores, `toCamelCase` gives the concatenation of the words, each with its
first letter upper-cased and its other letters unchanged; no underscore is left. -/
theorem toCamelCase_snake_words (words : List (List Char))
    (hw : ∀ w ∈ words, IsLowerWord w) :
    toCamelCase (String.mk (List.intercalate ['_'] words))
        = String.mk (words.map capitalizeWord).flatten ∧
      '_' ∉ (toCamelCase (String.mk (List.intercalate ['_'] words))).data := by
  have h := camelReplaceAll_words words hw
  refine ⟨by simp [toCamelCase, h], ?_⟩
  simp only [toCamelCase, h, List.mem_flatten, List.mem_map, not_exists, not_and]
  rintro l ⟨w, hwm, rfl⟩
  exact capitalizeWord_no_underscore (hw w hwm)

theorem toCamelCase_snake_words_witness :
    (∀ w ∈ ["time".data, "until".data, "up".data], IsLowerWord w) ∧
      (toCamelCase "time_until_up" = "TimeUntilUp" ∧
        '_' ∉ (toCamelCase "time_until_up").data) :=
  have hw : ∀ w ∈ ["time".data, "until".data, "up".data], IsLowerWord w := by
    intro w hw
    simp only [List.mem_cons, List.mem_singleton, List.not_mem_nil, or_false] at hw
    rcases hw with rfl | rfl | rfl <;> exact ⟨by decide, by decide⟩
  ⟨hw, toCamelCase_snake_words ["time".data, "until".data, "up".data] hw⟩

/-- C8, as stated, fails: an underscore followed by a digit, by another underscore
or by the end of the text is kept. -/
theorem toCamelCase_keeps_underscore :
    toCamelCase "a_1" = "A_1" ∧ '_' ∈ (toCamelCase "a_1").data ∧
      toCamelCase "a__b" = "A_B" ∧ toCamelCase "a_" = "A_" := by
  decide

/-- C8, amended: `toCamelCase` removes exactly the underscores that are immediately
followed by an ASCII letter; its result is free of underscores if and only if every
underscore of the input is immediately followed by an ASCII letter. -/
theorem toCamelCase_no_underscore_iff (s : String) :
    '_' ∉ (toCamelCase s).data ↔ UnderscoresBeforeLetters s.data := by
  simp only [toCamelCase]
  exact camelReplaceAll_no_underscore_iff s.data

/-! ## The two converters together -/

/-- C10: `toCamelCase` and `toSnakeCase` are not inverse to each other, in either
order: consecutive capitals are not restored (`HTTPServer` comes back as
`HttpServer`), and a one-letter word or a leading underscore is not restored
(`a_b` comes back as `ab`, `_a` as `a`). -/
theorem case_converters_not_inverse (u : UnicodeTables) :
    (∃ c : String, toCamelCase (toSnakeCase u c) ≠ c) ∧
    (∃ s : String, toSnakeCase u (toCamelCase s) ≠ s) ∧
    toSnakeCase u "HTTPServer" = "http_server" ∧
    toCamelCase (toSnakeCase u "HTTPServer") = "HttpServer" ∧
    toSnakeCase u (toCamelCase "a_b") = "ab" ∧
    toSnakeCase u (toCamelCase "_a") = "a" := by
  have h1 : toSnakeCase u "HTTPServer" = "http_server" := by
    simp [toSnakeCase, firstCapReplaceAll, allCapReplaceAll, ToLower, ToLowerRune,
      isAsciiLower, isAsciiUpper, isAsciiDigit]
  have h2 : toCamelCase "http_server" = "HttpServer" := by decide
  have h3 : toCamelCase "a_b" = "AB" := by decide
  have h4 : toSnakeCase u "AB" = "ab" := by
    simp [toSnakeCase, firstCapReplaceAll, allCapReplaceAll, ToLower, ToLowerRune,
      isAsciiLower, isAsciiUpper, isAsciiDigit]
  have h5 : toCamelCase "_a" = "A" := by decide
  have h6 : toSnakeCase u "A" = "a" := by
    simp [toSnakeCase, firstCapReplaceAll, allCapReplaceAll, ToLower, ToLowerRune]
  refine ⟨⟨"HTTPServer", ?_⟩, ⟨"a_b", ?_⟩, h1, ?_, ?_, ?_⟩
  · rw [h1, h2]; decide
  · rw [h3, h4]; decide
  · rw [h1, h2]
  · rw [h3, h4]
  · rw [h5, h6]

/-! ## Lemmas: toSnakeCase -/

theorem isAsciiDigit_toNat {c : Char} (h : isAsciiDigit c = true) : c.toNat < 128 := by
  simp only [isAsciiDigit, Bool.and_eq_true, decide_eq_true_eq] at h
  have : c.toNat ≤ '9'.toNat := h.2
  have : '9'.toNat = 57 := rfl
  omega

theorem IsAlnum.toNat_lt {c : Char} (h : IsAlnum c) : c.toNat < 128 :=
  h.elim isAsciiLetter_toNat isAsciiDigit_toNat

theorem isAsciiUpper_toNat {c : Char} (h : isAsciiUpper c = true) : c.toNat < 128 :=
  isAsciiLetter_toNat (isAsciiLetter_of_upper h)

theorem ascii_facts (c : Char) (hc : c.toNat < 128) :
    isAsciiUpper c.toLower = false ∧
    (c ≠ '_' → c.toLower ≠ '_') ∧
    (isAsciiUpper c = true → isAsciiLower c = false ∧ isAsciiDigit c = false ∧ c ≠ '\n') ∧
    (isAsciiDigit c = true → c ≠ '_') := by
  have key : ∀ n : Fin 128,
      isAsciiUpper (Char.ofNat n).toLower = false ∧
      ((Char.ofNat n) ≠ '_' → (Char.ofNat n).toLower ≠ '_') ∧
      (isAsciiUpper (Char.ofNat n) = true → isAsciiLower (Char.ofNat n) = false ∧
        isAsciiDigit (Char.ofNat n) = false ∧ (Char.ofNat n) ≠ '\n') ∧
      (isAsciiDigit (Char.ofNat n) = true → (Char.ofNat n) ≠ '_') := by decide
  exact ascii_forall (fun c => isAsciiUpper c.toLower = false ∧
    (c ≠ '_' → c.toLower ≠ '_') ∧
    (isAsciiUpper c = true → isAsciiLower c = false ∧ isAsciiDigit c = false ∧ c ≠ '\n') ∧
    (isAsciiDigit c = true → c ≠ '_')) key c hc

theorem IsAlnum.ne_underscore {c : Char} (h : IsAlnum c) : c ≠ '_' :=
  h.elim isAsciiLetter_ne_underscore
    (fun hd => (ascii_facts c (isAsciiDigit_toNat hd)).2.2.2 hd)

theorem ToLowerRune_ascii (u : UnicodeTables) {c : Char} (hc : c.toNat < 128) :
    ToLowerRune u c = c.toLower := by
  have : c.toNat ≤ 127 := by omega
  simp [ToLowerRune, this]

theorem firstCap_dropUnderscores (flag : Bool) (l : List Char) :
    dropUnderscores (firstCapReplaceAll flag l) = dropUnderscores l := by
  induction flag, l using firstCapReplaceAll.induct with
  | case1 inRun c d e cs h ih =>
    rw [firstCapReplaceAll, if_pos h]
    simp only [dropUnderscores, List.filter_cons] at ih ⊢
    rw [ih]
  | case2 inRun c d e cs h1 h2 ih =>
    rw [firstCapReplaceAll, if_neg h1, if_pos h2]
    simp only [dropUnderscores, List.filter_cons] at ih ⊢
    rw [ih]
    simp
  | case3 inRun c d e cs h1 h2 ih =>
    rw [firstCapReplaceAll, if_neg h1, if_neg h2]
    simp only [dropUnderscores, List.filter_cons] at ih ⊢
    rw [ih]
  | case4 inRun cs h =>
    rw [firstCapReplaceAll]
    intro c d e cs' hx
    exact h c d e cs' hx

theorem allCap_dropUnderscores (l : List Char) :
    dropUnderscores (allCapReplaceAll l) = dropUnderscores l := by
  induction l using allCapReplaceAll.induct with
  | case1 c d cs h ih =>
    rw [allCapReplaceAll, if_pos h]
    simp only [dropUnderscores, List.filter_cons] at ih ⊢
    rw [ih]
    simp
  | case2 c d cs h ih =>
    rw [allCapReplaceAll, if_neg h]
    simp only [dropUnderscores, List.filter_cons] at ih ⊢
    rw [ih]
  | case3 cs h =>
    rw [allCapReplaceAll]
    intro c d cs' hx
    exact h c d cs' hx

theorem dropUnderscores_cons_congr (c : Char) {t l : List Char}
    (h : dropUnderscores t = dropUnderscores l) :
    dropUnderscores (c :: t) = dropUnderscores (c :: l) := by
  simp only [dropUnderscores, List.filter_cons] at h ⊢
  rw [h]

theorem dropUnderscores_underscore_cons (t : List Char) :
    dropUnderscores ('_' :: t) = dropUnderscores t := by
  simp [dropUnderscores]

theorem dropUnderscores_cons_of_ne {c : Char} (h : c ≠ '_') (t : List Char) :
    dropUnderscores (c :: t) = c :: dropUnderscores t := by
  simp [dropUnderscores, h]

theorem firstCap_head (flag : Bool) (c : Char) (l : List Char) :
    ∃ t, firstCapReplaceAll flag (c :: l) = c :: t ∧ dropUnderscores t = dropUnderscores l := by
  have hex : ∃ t, firstCapReplaceAll flag (c :: l) = c :: t := by
    match l with
    | [] => exact ⟨[], by simp [firstCapReplaceAll]⟩
    | [d] => exact ⟨[d], by simp [firstCapReplaceAll]⟩
    | d :: e :: cs =>
      rw [firstCapReplaceAll]
      split
      · exact ⟨_, rfl⟩
      · split
        · exact ⟨_, rfl⟩
        · exact ⟨_, rfl⟩
  obtain ⟨t, ht⟩ := hex
  refine ⟨t, ht, ?_⟩
  have h := firstCap_dropUnderscores flag (c :: l)
  rw [ht] at h
  simp only [dropUnderscores, List.filter_cons] at h ⊢
  split at h
  · exact List.cons_injective h
  · exact h

theorem firstCap_split_nil (x y : Char) (b : List Char) (flag : Bool) :
    ∃ q r, firstCapReplaceAll flag (x :: y :: b) = x :: (q ++ y :: r) ∧
      (q = [] ∨ q = ['_']) ∧ dropUnderscores r = dropUnderscores b := by
  match b with
  | [] => exact ⟨[], [], by simp [firstCapReplaceAll], Or.inl rfl, rfl⟩
  | e :: b' =>
    rw [firstCapReplaceAll]
    split
    · obtain ⟨t, ht, hd⟩ := firstCap_head true y (e :: b')
      exact ⟨[], t, by rw [ht]; rfl, Or.inl rfl, hd⟩
    · split
      · refine ⟨['_'], e :: firstCapReplaceAll true b', rfl, Or.inr rfl, ?_⟩
        exact dropUnderscores_cons_congr e (firstCap_dropUnderscores true b')
      · obtain ⟨t, ht, hd⟩ := firstCap_head false y (e :: b')
        exact ⟨[], t, by rw [ht]; rfl, Or.inl rfl, hd⟩

theorem firstCap_split (x y : Char) (b : List Char) (hx : isAsciiUpper x = false) :
    ∀ (n : Nat) (a : List Char), a.length ≤ n → ∀ flag : Bool,
      ∃ p q r, firstCapReplaceAll flag (a ++ x :: y :: b) = p ++ x :: (q ++ y :: r) ∧
        dropUnderscores p = dropUnderscores a ∧ (q = [] ∨ q = ['_']) ∧
        dropUnderscores r = dropUnderscores b := by
  intro n
  induction n with
  | zero =>
    intro a ha flag
    have : a = [] := List.length_eq_zero.mp (Nat.le_zero.mp ha)
    subst this
    obtain ⟨q, r, h1, h2, h3⟩ := firstCap_split_nil x y b flag
    exact ⟨[], q, r, h1, rfl, h2, h3⟩
  | succ n ih =>
    intro a ha flag
    match a, ha with
    | [], _ =>
      obtain ⟨q, r, h1, h2, h3⟩ := firstCap_split_nil x y b flag
      exact ⟨[], q, r, h1, rfl, h2, h3⟩
    | [c], _ =>
      obtain ⟨p, q, r, h1, h2, h3, h4⟩ := ih [] (Nat.zero_le _) true
      obtain ⟨p', q', r', h1', h2', h3', h4'⟩ := ih [] (Nat.zero_le _) false
      simp only [List.nil_append] at h1 h1'
      simp only [List.cons_append, List.nil_append]
      rw [firstCapReplaceAll]
      split
      · exact ⟨c :: p, q, r, by rw [h1]; rfl, dropUnderscores_cons_congr c h2, h3, h4⟩
      · split
        · rename_i _ hm
          simp [hx] at hm
        · exact ⟨c :: p', q', r', by rw [h1']; rfl, dropUnderscores_cons_congr c h2', h3', h4'⟩
    | [c, d], ha =>
      have hl : [d].length ≤ n := by simp at ha ⊢; omega
      obtain ⟨p, q, r, h1, h2, h3, h4⟩ := ih [d] hl true
      obtain ⟨p', q', r', h1', h2', h3', h4'⟩ := ih [d] hl false
      simp only [List.cons_append, List.nil_append] at h1 h1' ⊢
      rw [firstCapReplaceAll]
      split
      · exact ⟨c :: p, q, r, by rw [h1]; rfl, dropUnderscores_cons_congr c h2, h3, h4⟩
      · split
        · obtain ⟨t, ht, hd⟩ := firstCap_head true y b
          refine ⟨[c, '_', d], [], t, by rw [ht]; rfl, ?_, Or.inl rfl, hd⟩
          exact dropUnderscores_cons_congr c (dropUnderscores_underscore_cons [d])
        · exact ⟨c :: p', q', r', by rw [h1']; rfl, dropUnderscores_cons_congr c h2', h3', h4'⟩
    | c :: d :: e :: a2, ha =>
      have hl : (d :: e :: a2).length ≤ n := by simp at ha ⊢; omega
      have hl2 : a2.length ≤ n := by simp at ha ⊢; omega
      obtain ⟨p, q, r, h1, h2, h3, h4⟩ := ih (d :: e :: a2) hl true
      obtain ⟨p', q', r', h1', h2', h3', h4'⟩ := ih (d :: e :: a2) hl false
      obtain ⟨p2, q2, r2, g1, g2, g3, g4⟩ := ih a2 hl2 true
      simp only [List.cons_append] at h1 h1' ⊢
      rw [firstCapReplaceAll]
      split
      · exact ⟨c :: p, q, r, by rw [h1]; rfl, dropUnderscores_cons_congr c h2, h3, h4⟩
      · split
        · refine ⟨c :: '_' :: d :: e :: p2, q2, r2, by rw [g1]; rfl, ?_, g3, g4⟩
          refine dropUnderscores_cons_congr c ?_
          rw [dropUnderscores_underscore_cons]
          exact dropUnderscores_cons_congr d (dropUnderscores_cons_congr e g2)
        · exact ⟨c :: p', q', r', by rw [h1']; rfl, dropUnderscores_cons_congr c h2', h3', h4'⟩

theorem allCap_append (p l : List Char)
    (hl : ∀ c l', l = c :: l' → isAsciiUpper c = false) :
    allCapReplaceAll (p ++ l) = allCapReplaceAll p ++ allCapReplaceAll l := by
  induction p using allCapReplaceAll.induct with
  | case1 c d cs h ih =>
    simp only [List.cons_append]
    rw [allCapReplaceAll, if_pos h, ih, allCapReplaceAll, if_pos h]
    rfl
  | case2 c d cs h ih =>
    simp only [List.cons_append] at ih ⊢
    rw [allCapReplaceAll, if_neg h, ih, allCapReplaceAll, if_neg h]
    rfl
  | case3 cs h =>
    match cs, h with
    | [], _ => simp [allCapReplaceAll]
    | [c], _ =>
      match l, hl with
      | [], _ => simp [allCapReplaceAll]
      | d :: l', hl =>
        have hd := hl d l' rfl
        simp only [List.cons_append, List.nil_append]
        rw [allCapReplaceAll, if_neg (by simp [hd])]
        simp [allCapReplaceAll]
    | c :: d :: cs', h => exact absurd rfl (h c d cs')

theorem allCap_cons_of_not (c : Char) (l : List Char)
    (h : (isAsciiLower c || isAsciiDigit c) = false) :
    allCapReplaceAll (c :: l) = c :: allCapReplaceAll l := by
  match l with
  | [] => simp [allCapReplaceAll]
  | d :: l' =>
    rw [allCapReplaceAll, if_neg (by simp [h])]

theorem allCap_cons_of_next_not (c d : Char) (l : List Char) (h : isAsciiUpper d = false) :
    allCapReplaceAll (c :: d :: l) = c :: allCapReplaceAll (d :: l) := by
  rw [allCapReplaceAll, if_neg (by simp [h])]

theorem dropUnderscores_append (l₁ l₂ : List Char) :
    dropUnderscores (l₁ ++ l₂) = dropUnderscores l₁ ++ dropUnderscores l₂ := by
  simp [dropUnderscores]

theorem dropUnderscores_alnum {l : List Char} (h : ∀ c ∈ l, IsAlnum c) :
    dropUnderscores l = l := by
  simp only [dropUnderscores, List.filter_eq_self, decide_eq_true_eq]
  exact fun c hc => (h c hc).ne_underscore

theorem snakeish_of_dropUnderscores {t l : List Char} (h : dropUnderscores t = dropUnderscores l)
    (hl : ∀ c ∈ l, IsAlnum c) : ∀ c ∈ t, c = '_' ∨ IsAlnum c := by
  intro c hc
  by_cases hu : c = '_'
  · exact Or.inl hu
  · right
    have : c ∈ dropUnderscores t := by
      simp only [dropUnderscores, List.mem_filter, decide_eq_true_eq]
      exact ⟨hc, hu⟩
    rw [h] at this
    simp only [dropUnderscores, List.mem_filter] at this
    exact hl c this.1

theorem snakeish_toNat {c : Char} (h : c = '_' ∨ IsAlnum c) : c.toNat < 128 := by
  rcases h with rfl | h
  · decide
  · exact h.toNat_lt

theorem ToLower_snakeish (u : UnicodeTables) {t : List Char}
    (ht : ∀ c ∈ t, c = '_' ∨ IsAlnum c) : ToLower u t = t.map Char.toLower := by
  simp only [ToLower]
  exact List.map_congr_left (fun c hc => ToLowerRune_ascii u (snakeish_toNat (ht c hc)))

theorem dropUnderscores_map_toLower {t : List Char} (ht : ∀ c ∈ t, c = '_' ∨ IsAlnum c) :
    dropUnderscores (t.map Char.toLower) = (dropUnderscores t).map Char.toLower := by
  induction t with
  | nil => rfl
  | cons c cs ih =>
    have ih' := ih (fun x hx => ht x (List.mem_cons_of_mem c hx))
    rcases ht c (List.mem_cons_self c cs) with rfl | hc
    · have : Char.toLower '_' = '_' := by decide
      rw [List.map_cons, this, dropUnderscores_underscore_cons, dropUnderscores_underscore_cons,
        ih']
    · have h1 := hc.ne_underscore
      have h2 := (ascii_facts c hc.toNat_lt).2.1 h1
      rw [List.map_cons, dropUnderscores_cons_of_ne h2, dropUnderscores_cons_of_ne h1,
        List.map_cons, ih']

theorem toSnakeCase_data (u : UnicodeTables) (s : String) (hs : ∀ c ∈ s.data, IsAlnum c) :
    (∀ c ∈ allCapReplaceAll (firstCapReplaceAll false s.data), c = '_' ∨ IsAlnum c) ∧
    (toSnakeCase u s).data
      = (allCapReplaceAll (firstCapReplaceAll false s.data)).map Char.toLower := by
  have hd : dropUnderscores (allCapReplaceAll (firstCapReplaceAll false s.data))
      = dropUnderscores s.data := by
    rw [allCap_dropUnderscores, firstCap_dropUnderscores]
  have hsn := snakeish_of_dropUnderscores hd hs
  exact ⟨hsn, by simp only [toSnakeCase]; exact ToLower_snakeish u hsn⟩

/-! ## toSnakeCase -/

/-- C9: on a string of ASCII letters and digits, the result of `toSnakeCase` holds
no upper-case letter, is the lower-cased input once its underscores are deleted,
and has an underscore immediately before the image of every upper-case letter that
directly follows a lower-case letter or a digit (`o₁` is the image of the text up
to and including that lower-case letter or digit, `o₂` the image of the text after
the upper-case letter). -/
theorem toSnakeCase_alnum (u : UnicodeTables) (s : String) (hs : ∀ c ∈ s.data, IsAlnum c) :
    (∀ c ∈ (toSnakeCase u s).data, isAsciiUpper c = false) ∧
    dropUnderscores (toSnakeCase u s).data = s.data.map Char.toLower ∧
    (∀ a b x y, s.data = a ++ x :: y :: b →
      (isAsciiLower x = true ∨ isAsciiDigit x = true) → isAsciiUpper y = true →
      ∃ o₁ o₂, (toSnakeCase u s).data = o₁ ++ '_' :: y.toLower :: o₂ ∧
        dropUnderscores o₁ = (a ++ [x]).map Char.toLower ∧
        dropUnderscores o₂ = b.map Char.toLower) := by
  obtain ⟨hsn, hdata⟩ := toSnakeCase_data u s hs
  refine ⟨?_, ?_, ?_⟩
  · intro c hc
    rw [hdata, List.mem_map] at hc
    obtain ⟨c', hc', rfl⟩ := hc
    exact (ascii_facts c' (snakeish_toNat (hsn c' hc'))).1
  · rw [hdata, dropUnderscores_map_toLower hsn, allCap_dropUnderscores,
      firstCap_dropUnderscores, dropUnderscores_alnum hs]
  · intro a b x y hab hx hy
    have hy' := (ascii_facts y (isAsciiUpper_toNat hy)).2.2.1 hy
    have hxu : isAsciiUpper x = false := by
      cases hxx : isAsciiUpper x with
      | false => rfl
      | true =>
        have := (ascii_facts x (isAsciiUpper_toNat hxx)).2.2.1 hxx
        rcases hx with hx | hx
        · rw [this.1] at hx; cases hx
        · rw [this.2.1] at hx; cases hx
    have ha : ∀ c ∈ a, IsAlnum c := fun c hc => hs c (by rw [hab]; simp [hc])
    have hb : ∀ c ∈ b, IsAlnum c := fun c hc => hs c (by rw [hab]; simp [hc])
    obtain ⟨p, q, r, h1, h2, h3, h4⟩ := firstCap_split x y b hxu a.length a (Nat.le_refl _) false
    have hxy : (isAsciiLower x || isAsciiDigit x) = true := by
      rcases hx with hx | hx <;> simp [hx]
    have hynot : (isAsciiLower y || isAsciiDigit y) = false := by
      simp [hy'.1, hy'.2.1]
    have hmid : allCapReplaceAll (x :: (q ++ y :: r)) = x :: '_' :: y :: allCapReplaceAll r := by
      rcases h3 with rfl | rfl
      · simp only [List.nil_append]
        rw [allCapReplaceAll, if_pos (by simp [hxy, hy])]
      · simp only [List.cons_append, List.nil_append]
        rw [allCap_cons_of_next_not x '_' _ (by decide),
          allCap_cons_of_not '_' _ (by decide), allCap_cons_of_not y r hynot]
    have hP2 : allCapReplaceAll (firstCapReplaceAll false s.data)
        = (allCapReplaceAll p ++ [x]) ++ '_' :: y :: allCapReplaceAll r := by
      rw [hab, h1, allCap_append p _ (by
        intro c l' hcl
        cases hcl
        exact hxu), hmid]
      simp
    have hsn1 : ∀ c ∈ allCapReplaceAll p ++ [x], c = '_' ∨ IsAlnum c :=
      fun c hc => hsn c (by rw [hP2]; exact List.mem_append_left _ hc)
    have hsn2 : ∀ c ∈ allCapReplaceAll r, c = '_' ∨ IsAlnum c :=
      fun c hc => hsn c (by rw [hP2]; simp [hc])
    refine ⟨(allCapReplaceAll p ++ [x]).map Char.toLower,
      (allCapReplaceAll r).map Char.toLower, ?_, ?_, ?_⟩
    · rw [hdata, hP2]
      have : Char.toLower '_' = '_' := by decide
      simp [this]
    · have hxa : IsAlnum x := hs x (by rw [hab]; simp)
      rw [dropUnderscores_map_toLower hsn1, dropUnderscores_append, allCap_dropUnderscores,
        h2, dropUnderscores_alnum ha, dropUnderscores_alnum (l := [x]) (by simpa using hxa)]
    · rw [dropUnderscores_map_toLower hsn2, allCap_dropUnderscores, h4,
        dropUnderscores_alnum hb]

theorem toSnakeCase_alnum_witness :
    (∀ c ∈ "TimeUntilUp".data, IsAlnum c) ∧
    ((∀ c ∈ (toSnakeCase asciiTables "TimeUntilUp").data, isAsciiUpper c = false) ∧
    dropUnderscores (toSnakeCase asciiTables "TimeUntilUp").data
      = "TimeUntilUp".data.map Char.toLower ∧
    (∀ a b x y, "TimeUntilUp".data = a ++ x :: y :: b →
      (isAsciiLower x = true ∨ isAsciiDigit x = true) → isAsciiUpper y = true →
      ∃ o₁ o₂, (toSnakeCase asciiTables "TimeUntilUp").data = o₁ ++ '_' :: y.toLower :: o₂ ∧
        dropUnderscores o₁ = (a ++ [x]).map Char.toLower ∧
        dropUnderscores o₂ = b.map Char.toLower)) ∧
    toSnakeCase asciiTables "TimeUntilUp" = "time_until_up" :=
  have hs : ∀ c ∈ "TimeUntilUp".data, IsAlnum c := by
    intro c hc
    have : ∀ c ∈ "TimeUntilUp".data, isAsciiLetter c = true := by decide
    exact Or.inl (this c hc)
  ⟨hs, toSnakeCase_alnum asciiTables "TimeUntilUp" hs, by decide⟩

/-! ## Lemmas: Title -/

theorem lower_facts (c : Char) (h : isAsciiLower c = true) :
    c.toNat < 128 ∧ isAsciiUpper c.toUpper = true ∧ c.toUpper.toNat < 128 ∧
      c.toUpper.toLower = c ∧ isAsciiDigit c = false ∧ isAsciiUpper c = false := by
  have hc : c.toNat < 128 := isAsciiLetter_toNat (isAsciiLetter_of_lower h)
  have key : ∀ n : Fin 128, isAsciiLower (Char.ofNat n) = true →
      isAsciiUpper (Char.ofNat n).toUpper = true ∧ (Char.ofNat n).toUpper.toNat < 128 ∧
      (Char.ofNat n).toUpper.toLower = Char.ofNat n ∧ isAsciiDigit (Char.ofNat n) = false ∧
      isAsciiUpper (Char.ofNat n) = false := by decide
  exact ⟨hc, ascii_forall (fun c => isAsciiLower c = true →
      isAsciiUpper c.toUpper = true ∧ c.toUpper.toNat < 128 ∧
      c.toUpper.toLower = c ∧ isAsciiDigit c = false ∧ isAsciiUpper c = false) key c hc h⟩

theorem isSeparator_lower (u : UnicodeTables) {c : Char} (h : isAsciiLower c = true) :
    isSeparator u c = false := by
  have hc : c.toNat ≤ 127 := by have := (lower_facts c h).1; omega
  simp [isSeparator, hc, h]

theorem isSeparator_blank (u : UnicodeTables) : isSeparator u ' ' = true := by
  simp [isSeparator]
  decide

theorem titleFrom_lower (u : UnicodeTables) (w : List Char)
    (hw : ∀ c ∈ w, isAsciiLower c = true) (prev : Char) (hp : isAsciiLower prev = true) :
    titleFrom u prev w = w := by
  induction w generalizing prev with
  | nil => rfl
  | cons c cs ih =>
    simp only [titleFrom, isSeparator_lower u hp]
    rw [ih (fun x hx => hw x (List.mem_cons_of_mem c hx)) c (hw c (List.mem_cons_self c cs))]
    simp

theorem Title_lowerWord (u : UnicodeTables) (k : String) (hk : IsLowerWord k.data) :
    Title u k = capitalized k := by
  obtain ⟨hne, hl⟩ := hk
  simp only [Title, capitalized]
  cases hd : k.data with
  | nil => exact absurd hd hne
  | cons c cs =>
    rw [hd] at hl
    have hc := hl c (List.mem_cons_self c cs)
    have hc127 : c.toNat ≤ 127 := by have := (lower_facts c hc).1; omega
    simp only [titleFrom, isSeparator_blank, if_true, capitalizeWord, ToTitleRune, hc127]
    rw [titleFrom_lower u cs (fun x hx => hl x (List.mem_cons_of_mem c hx)) c hc]

theorem isExported_capitalized (u : UnicodeTables) (k : String) (hk : IsLowerWord k.data) :
    isExported u (capitalized k) = true := by
  obtain ⟨hne, hl⟩ := hk
  cases hd : k.data with
  | nil => exact absurd hd hne
  | cons c cs =>
    rw [hd] at hl
    have hc := lower_facts c (hl c (List.mem_cons_self c cs))
    have h127 : c.toUpper.toNat ≤ 127 := by have := hc.2.2.1; omega
    simp [isExported, capitalized, hd, capitalizeWord, h127, hc.2.1]

theorem capitalized_injective {k k' : String} (hk : IsLowerWord k.data)
    (hk' : IsLowerWord k'.data) (h : capitalized k = capitalized k') : k = k' := by
  obtain ⟨hne, hl⟩ := hk
  obtain ⟨hne', hl'⟩ := hk'
  have hdata : k.data = k'.data := by
    have h := congrArg String.data h
    simp only [capitalized] at h
    cases hd : k.data with
    | nil => exact absurd hd hne
    | cons c cs =>
      cases hd' : k'.data with
      | nil => exact absurd hd' hne'
      | cons c' cs' =>
        rw [hd, hd'] at h
        rw [hd] at hl
        rw [hd'] at hl'
        simp only [capitalizeWord, List.cons.injEq] at h
        have e1 := (lower_facts c (hl c (List.mem_cons_self c cs))).2.2.2.1
        have e2 := (lower_facts c' (hl' c' (List.mem_cons_self c' cs'))).2.2.2.1
        have : c = c' := by rw [← e1, ← e2, h.1]
        rw [this, h.2]
  exact String.ext hdata

/-! ## Lemmas: records -/

theorem FieldByName_name {val : Record} {name : String} {f : Field}
    (h : FieldByName val name = some f) : f.name = name := by
  have := List.find?_some h
  simpa using this

theorem FieldByName_store (val : Record) (n m : String) (x : GoVal) :
    FieldByName (store val n x) m =
      if n = m then (FieldByName val n).map (fun f => { f with value := x })
      else FieldByName val m := by
  induction val with
  | nil => simp [store, FieldByName]
  | cons f fs ih =>
    simp only [FieldByName] at ih
    by_cases hfn : f.name = n
    · by_cases hnm : n = m
      · subst hnm
        simp [store, FieldByName, hfn]
      · have : ¬ f.name = m := fun e => hnm (hfn ▸ e)
        simp [store, FieldByName, hfn, hnm]
    · by_cases hnm : n = m
      · subst hnm
        simp [store, FieldByName, hfn, List.find?_cons, ih]
      · simp only [store, hfn, if_false, FieldByName, List.find?_cons, ih, hnm]

theorem FieldByName_store_of_ne (val : Record) {n m : String} (x : GoVal) (h : n ≠ m) :
    FieldByName (store val n x) m = FieldByName val m := by
  rw [FieldByName_store, if_neg h]

theorem FieldByName_store_self (val : Record) {n : String} (x : GoVal) {f : Field}
    (h : FieldByName val n = some f) :
    FieldByName (store val n x) n = some { f with value := x } := by
  rw [FieldByName_store, if_pos rfl, h]
  rfl

/-! ## Lemmas: mapEntity -/

theorem assignableTo_self (t : GoType) : assignableTo t t = true := by
  simp [assignableTo]

theorem assignTo_of_dynType {t : GoType} {x : GoVal} (h : x.dynType = some t) :
    assignTo t x = .ok x := by
  simp [assignTo, h, assignableTo_self]

theorem setElems_of_dynType (elem : GoType) (xs : List GoVal)
    (h : ∀ x ∈ xs, x.dynType = some elem) : setElems elem xs = .ok xs := by
  induction xs with
  | nil => rfl
  | cons x xs ih =>
    simp only [setElems, assignTo_of_dynType (h x (List.mem_cons_self x xs)),
      ih (fun y hy => h y (List.mem_cons_of_mem x hy))]

theorem fieldSet_ok (u : UnicodeTables) (val : Record) (f : Field) (x : GoVal)
    (hex : isExported u f.name = true) (hx : x.dynType = some f.type) :
    fieldSet u val (some f) x = .ok (store val f.name x) := by
  simp [fieldSet, mustBeAssignable, hex, assignTo_of_dynType hx]

theorem ValueMatches_not_slice {t : GoType} {v : GoVal} (ht : ∀ e, t ≠ .slice e)
    (h : ValueMatches t v) : v.dynType = some t ∧ expectedValue t v = v := by
  cases t with
  | slice e => exact absurd rfl (ht e)
  | string => exact ⟨h, rfl⟩
  | bool => exact ⟨h, rfl⟩
  | int => exact ⟨h, rfl⟩
  | iface => exact ⟨h, rfl⟩

theorem mapEntityField_primary (u : UnicodeTables) (d : ConfigMap) (val : Record) (k : String)
    (f : Field) (hf : FieldByName val (Title u k) = some f) (hex : isExported u f.name = true)
    (hv : ValueMatches f.type (d.at k)) :
    mapEntityField u d val k = .ok (store val f.name (expectedValue f.type (d.at k))) := by
  by_cases hs : ∃ e, f.type = .slice e
  · obtain ⟨e, he⟩ := hs
    rw [he] at hv
    obtain ⟨xs, hxs, hall⟩ := hv
    have hset := fieldSet_ok u val f (.slice e xs) hex (by rw [he]; rfl)
    simp only [mapEntityField, hf, he, hxs, setElems_of_dynType e xs hall, expectedValue]
    rw [hset]
  · have hns : ∀ e, f.type ≠ .slice e := fun e he => hs ⟨e, he⟩
    obtain ⟨hdyn, hexp⟩ := ValueMatches_not_slice hns hv
    have hset := fieldSet_ok u val f (d.at k) hex hdyn
    rw [hexp, ← hset]
    simp only [mapEntityField, hf]

theorem mapEntityField_fallback (u : UnicodeTables) (d : ConfigMap) (val : Record) (k : String)
    (f : Field) (hp : FieldByName val (Title u k) = none)
    (hf : FieldByName val (Title u (toCamelCase k)) = some f)
    (hns : ∀ e, f.type ≠ .slice e) (hex : isExported u f.name = true)
    (hv : ValueMatches f.type (d.at k)) :
    mapEntityField u d val k = .ok (store val f.name (expectedValue f.type (d.at k))) := by
  obtain ⟨hdyn, hexp⟩ := ValueMatches_not_slice hns hv
  rw [hexp, ← fieldSet_ok u val f (d.at k) hex hdyn]
  simp only [mapEntityField, hp, hf]

theorem ConfigMap.at_of_mem (d : ConfigMap) (hd : (d.map Prod.fst).Nodup) (k : String)
    (v : GoVal) (h : (k, v) ∈ d) : d.at k = v := by
  induction d with
  | nil => cases h
  | cons e es ih =>
    obtain ⟨k', v'⟩ := e
    simp only [List.map_cons, List.nodup_cons, List.mem_map, not_exists, not_and] at hd
    rcases List.mem_cons.mp h with he | he
    · cases he
      simp [ConfigMap.at, List.lookup]
    · have hne : k ≠ k' := by
        rintro rfl
        exact hd.1 (k, v) he rfl
      have hb : (k == k') = false := by simpa using hne
      have := ih hd.2 he
      simp only [ConfigMap.at, List.lookup, hb] at this ⊢
      exact this

theorem mapEntityLoop_assigns (u : UnicodeTables) (d : ConfigMap) :
    ∀ (ks : List String) (val : Record), ks.Nodup →
      (∀ k ∈ ks, IsLowerWord k.data ∧
        ∃ f, FieldByName val (capitalized k) = some f ∧ ValueMatches f.type (d.at k)) →
      (mapEntityLoop u d ks val).2 = none ∧
      (∀ k ∈ ks, ∃ f, FieldByName val (capitalized k) = some f ∧
        FieldByName (mapEntityLoop u d ks val).1 (capitalized k)
          = some { f with value := expectedValue f.type (d.at k) }) ∧
      (∀ m, (∀ k ∈ ks, capitalized k ≠ m) →
        FieldByName (mapEntityLoop u d ks val).1 m = FieldByName val m) := by
  intro ks
  induction ks with
  | nil =>
    intro val _ _
    exact ⟨rfl, fun k hk => absurd hk (List.not_mem_nil k), fun m _ => rfl⟩
  | cons k ks ih =>
    intro val hnd h
    obtain ⟨hkw, f, hf, hv⟩ := h k (List.mem_cons_self k ks)
    have hname : f.name = capitalized k := FieldByName_name hf
    have hex : isExported u f.name = true := by rw [hname]; exact isExported_capitalized u k hkw
    have hstep := mapEntityField_primary u d val k f (by rw [Title_lowerWord u k hkw]; exact hf)
      hex hv
    rw [hname] at hstep
    have hkn : k ∉ ks := (List.nodup_cons.mp hnd).1
    have hne : ∀ k' ∈ ks, capitalized k ≠ capitalized k' := by
      intro k' hk' e
      have hk'w := (h k' (List.mem_cons_of_mem k hk')).1
      exact hkn (capitalized_injective hkw hk'w e ▸ hk')
    have hloop : mapEntityLoop u d (k :: ks) val
        = mapEntityLoop u d ks
            (store val (capitalized k) (expectedValue f.type (d.at k))) := by
      simp only [mapEntityLoop, hstep]
    obtain ⟨i1, i2, i3⟩ := ih (store val (capitalized k) (expectedValue f.type (d.at k)))
      (List.nodup_cons.mp hnd).2 (by
        intro k' hk'
        obtain ⟨hw', f', hf', hv'⟩ := h k' (List.mem_cons_of_mem k hk')
        exact ⟨hw', f', by rw [FieldByName_store_of_ne _ _ (hne k' hk')]; exact hf', hv'⟩)
    rw [hloop]
    refine ⟨i1, ?_, ?_⟩
    · intro k' hk'
      rcases List.mem_cons.mp hk' with rfl | hk'
      · refine ⟨f, hf, ?_⟩
        rw [i3 (capitalized k') (fun k'' hk'' => (hne k'' hk'').symm),
          FieldByName_store_self _ _ hf]
      · obtain ⟨f', hf', hr'⟩ := i2 k' hk'
        rw [FieldByName_store_of_ne _ _ (hne k' hk')] at hf'
        exact ⟨f', hf', hr'⟩
    · intro m hm
      rw [i3 m (fun k' hk' => hm k' (List.mem_cons_of_mem k hk')),
        FieldByName_store_of_ne _ _ (hm k (List.mem_cons_self k ks))]

/-! ## mapEntity -/

/-- C4: when every key of the configuration map is a single lower-case ASCII word
whose capitalised form names a field of the record, and every value matches its
field, `mapEntity` ends without a panic and every such field then holds the value
supplied for its key; a sequence field holds the elements of the dynamic list, in
the same order. -/
theorem mapEntity_assigns (u : UnicodeTables) (obj : Record) (d : ConfigMap)
    (hd : (d.map Prod.fst).Nodup)
    (h : ∀ kv ∈ d, IsLowerWord kv.1.data ∧
      ∃ f, FieldByName obj (capitalized kv.1) = some f ∧ ValueMatches f.type kv.2) :
    (mapEntity u d obj).2 = none ∧
    ∀ kv ∈ d, ∃ f, FieldByName obj (capitalized kv.1) = some f ∧
      FieldByName (mapEntity u d obj).1 (capitalized kv.1)
        = some { f with value := expectedValue f.type kv.2 } := by
  have hat : ∀ kv ∈ d, d.at kv.1 = kv.2 := fun kv hkv => d.at_of_mem hd kv.1 kv.2 hkv
  obtain ⟨r1, r2, _⟩ := mapEntityLoop_assigns u d (d.map Prod.fst) obj hd (by
    intro k hk
    obtain ⟨kv, hkv, rfl⟩ := List.mem_map.mp hk
    obtain ⟨hw, f, hf, hv⟩ := h kv hkv
    exact ⟨hw, f, hf, by rw [hat kv hkv]; exact hv⟩)
  refine ⟨r1, ?_⟩
  intro kv hkv
  obtain ⟨f, hf, hr⟩ := r2 kv.1 (List.mem_map.mpr ⟨kv, hkv, rfl⟩)
  rw [hat kv hkv] at hr
  exact ⟨f, hf, hr⟩

theorem mapEntity_assigns_witness :
    (exampleConfig.map Prod.fst).Nodup ∧
    (∀ kv ∈ exampleConfig, IsLowerWord kv.1.data ∧
      ∃ f, FieldByName exampleRecord (capitalized kv.1) = some f ∧ ValueMatches f.type kv.2) ∧
    ((mapEntity asciiTables exampleConfig exampleRecord).2 = none ∧
      ∀ kv ∈ exampleConfig, ∃ f, FieldByName exampleRecord (capitalized kv.1) = some f ∧
        FieldByName (mapEntity asciiTables exampleConfig exampleRecord).1 (capitalized kv.1)
          = some { f with value := expectedValue f.type kv.2 }) ∧
    mapEntity asciiTables exampleConfig exampleRecord =
      ([⟨"Name", .string, .str "m1"⟩, ⟨"Interval", .int, .int 5⟩,
        ⟨"Tags", .slice .string, .slice .string [.str "a", .str "b"]⟩], none) :=
  have hd : (exampleConfig.map Prod.fst).Nodup := by decide
  have h : ∀ kv ∈ exampleConfig, IsLowerWord kv.1.data ∧
      ∃ f, FieldByName exampleRecord (capitalized kv.1) = some f ∧
        ValueMatches f.type kv.2 := by
    intro kv hkv
    simp only [exampleConfig, List.mem_cons, List.mem_singleton, List.not_mem_nil,
      or_false] at hkv
    rcases hkv with rfl | rfl | rfl
    · exact ⟨⟨by decide, by decide⟩, ⟨"Name", .string, .str ""⟩, rfl, rfl⟩
    · exact ⟨⟨by decide, by decide⟩, ⟨"Interval", .int, .int 0⟩, rfl, rfl⟩
    · refine ⟨⟨by decide, by decide⟩, ⟨"Tags", .slice .string, .slice .string []⟩, rfl,
        [.str "a", .str "b"], rfl, ?_⟩
      intro x hx
      simp only [List.mem_cons, List.mem_singleton, List.not_mem_nil, or_false] at hx
      rcases hx with rfl | rfl <;> rfl
  ⟨hd, h, mapEntity_assigns asciiTables exampleRecord exampleConfig hd h, rfl⟩

/-- C5, as stated, fails: the field looked up first for the key `tag_list` is
`Tag_list` (`strings.Title` of the key), not `TagList` (`toCamelCase` of the key);
in a record that has both, the value goes to `Tag_list` and `TagList` keeps its
old value. -/
theorem mapEntity_prefers_title_field :
    toCamelCase "tag_list" = "TagList" ∧ Title asciiTables "tag_list" = "Tag_list" ∧
    mapEntity asciiTables [("tag_list", .str "x")]
        [⟨"Tag_list", .string, .str ""⟩, ⟨"TagList", .string, .str ""⟩]
      = ([⟨"Tag_list", .string, .str "x"⟩, ⟨"TagList", .string, .str ""⟩], none) :=
  ⟨by decide, by decide, rfl⟩

/-- C5, amended: for a key `k` the loop of `mapEntity` first looks up the field
named `strings.Title(k)`, and the field named `strings.Title(toCamelCase(k))` only
when the record has no field of the first name.  When the field found in this way
is exported, is no sequence if it was found by the second name, and the value of
`k` matches it, the value is assigned to that field, a dynamic list being coerced
element-wise, in order, when the field is a sequence; every field of another
name keeps its value. -/
theorem mapEntityField_lookup (u : UnicodeTables) (d : ConfigMap) (val : Record) (k : String)
    (f : Field)
    (hf : FieldByName val (Title u k) = some f ∨
      (FieldByName val (Title u k) = none ∧
        FieldByName val (Title u (toCamelCase k)) = some f ∧ ∀ e, f.type ≠ .slice e))
    (hex : isExported u f.name = true) (hv : ValueMatches f.type (d.at k)) :
    mapEntityField u d val k = .ok (store val f.name (expectedValue f.type (d.at k))) ∧
    FieldByName (store val f.name (expectedValue f.type (d.at k))) f.name
      = some { f with value := expectedValue f.type (d.at k) } ∧
    ∀ m, m ≠ f.name →
      FieldByName (store val f.name (expectedValue f.type (d.at k))) m = FieldByName val m := by
  have hself : FieldByName val f.name = some f := by
    rcases hf with hf | ⟨_, hf, _⟩
    · rw [FieldByName_name hf]; exact hf
    · rw [FieldByName_name hf]; exact hf
  refine ⟨?_, FieldByName_store_self _ _ hself, fun m hm => FieldByName_store_of_ne _ _ (Ne.symm hm)⟩
  rcases hf with hf | ⟨hp, hf, hns⟩
  · exact mapEntityField_primary u d val k f hf hex hv
  · exact mapEntityField_fallback u d val k f hp hf hns hex hv

theorem mapEntityField_lookup_witness :
    (FieldByName [⟨"TimeUntilUp", .int, .int 0⟩] (Title asciiTables "time_until_up") = none ∧
      FieldByName [⟨"TimeUntilUp", .int, .int 0⟩]
          (Title asciiTables (toCamelCase "time_until_up"))
        = some ⟨"TimeUntilUp", .int, .int 0⟩) ∧
    isExported asciiTables "TimeUntilUp" = true ∧
    ValueMatches .int (ConfigMap.at [("time_until_up", .int 3)] "time_until_up") ∧
    (mapEntityField asciiTables [("time_until_up", .int 3)] [⟨"TimeUntilUp", .int, .int 0⟩]
        "time_until_up"
      = .ok (store [⟨"TimeUntilUp", .int, .int 0⟩] "TimeUntilUp" (.int 3)) ∧
    FieldByName (store [⟨"TimeUntilUp", .int, .int 0⟩] "TimeUntilUp" (.int 3)) "TimeUntilUp"
      = some ⟨"TimeUntilUp", .int, .int 3⟩ ∧
    ∀ m, m ≠ "TimeUntilUp" →
      FieldByName (store [⟨"TimeUntilUp", .int, .int 0⟩] "TimeUntilUp" (.int 3)) m
        = FieldByName [⟨"TimeUntilUp", .int, .int 0⟩] m) :=
  ⟨⟨rfl, rfl⟩, by decide, rfl,
    mapEntityField_lookup asciiTables [("time_until_up", .int 3)]
      [⟨"TimeUntilUp", .int, .int 0⟩] "time_until_up" ⟨"TimeUntilUp", .int, .int 0⟩
      (Or.inr ⟨rfl, rfl, fun e he => by cases he⟩) (by decide) rfl⟩

theorem fieldSet_ok_store {u : UnicodeTables} {val val' : Record} {f : Option Field} {x : GoVal}
    (h : fieldSet u val f x = .ok val') : ∃ n y, val' = store val n y := by
  unfold fieldSet at h
  split at h
  · cases h
  · split at h
    · cases h
    · cases h
      exact ⟨_, _, rfl⟩

theorem mapEntityField_ok_store {u : UnicodeTables} {d : ConfigMap} {val val' : Record}
    {k : String} (h : mapEntityField u d val k = .ok val') : ∃ n y, val' = store val n y := by
  unfold mapEntityField at h
  split at h
  · split at h
    · split at h
      · split at h
        · cases h
        · exact fieldSet_ok_store h
      · cases h
    · exact fieldSet_ok_store h
  · exact fieldSet_ok_store h

theorem FieldByName_store_eq_none (val : Record) (n m : String) (x : GoVal) :
    FieldByName (store val n x) m = none ↔ FieldByName val m = none := by
  rw [FieldByName_store]
  by_cases h : n = m
  · subst h
    simp
  · simp [h]

theorem mapEntityField_missing (u : UnicodeTables) (d : ConfigMap) (val : Record) (k : String)
    (h1 : FieldByName val (Title u k) = none)
    (h2 : FieldByName val (Title u (toCamelCase k)) = none) :
    mapEntityField u d val k = .error .setOnZeroValue := by
  simp [mapEntityField, h1, h2, fieldSet, mustBeAssignable]

theorem mapEntityLoop_missing (u : UnicodeTables) (d : ConfigMap) (k : String) :
    ∀ (ks : List String) (val : Record), k ∈ ks →
      FieldByName val (Title u k) = none →
      FieldByName val (Title u (toCamelCase k)) = none →
      (mapEntityLoop u d ks val).2 ≠ none := by
  intro ks
  induction ks with
  | nil => intro _ hk; cases hk
  | cons k' ks ih =>
    intro val hk h1 h2
    cases hstep : mapEntityField u d val k' with
    | error p => simp [mapEntityLoop, hstep]
    | ok val' =>
      have hne : k ≠ k' := by
        rintro rfl
        rw [mapEntityField_missing u d val k h1 h2] at hstep
        cases hstep
      have hmem : k ∈ ks := by
        rcases List.mem_cons.mp hk with e | e
        · exact absurd e hne
        · exact e
      obtain ⟨n, y, rfl⟩ := mapEntityField_ok_store hstep
      simp only [mapEntityLoop, hstep]
      exact ih _ hmem ((FieldByName_store_eq_none val n _ y).mpr h1)
        ((FieldByName_store_eq_none val n _ y).mpr h2)

theorem mapEntityLoop_append (u : UnicodeTables) (d : ConfigMap) (post : List String) :
    ∀ (pre : List String) (val val' : Record), mapEntityLoop u d pre val = (val', none) →
      mapEntityLoop u d (pre ++ post) val = mapEntityLoop u d post val' ∧
      ∀ m, FieldByName val' m = none ↔ FieldByName val m = none := by
  intro pre
  induction pre with
  | nil =>
    intro val val' h
    simp only [mapEntityLoop, Prod.mk.injEq, and_true] at h
    subst h
    exact ⟨rfl, fun m => Iff.rfl⟩
  | cons k ks ih =>
    intro val val' h
    cases hstep : mapEntityField u d val k with
    | error p => simp [mapEntityLoop, hstep] at h
    | ok val1 =>
      simp only [mapEntityLoop, hstep] at h
      obtain ⟨i1, i2⟩ := ih val1 val' h
      obtain ⟨n, y, rfl⟩ := mapEntityField_ok_store hstep
      refine ⟨?_, fun m => (i2 m).trans (FieldByName_store_eq_none val n m y)⟩
      simp only [List.cons_append, mapEntityLoop, hstep]
      exact i1

/-- C6, as stated, fails: with the record `{Name string}` and the map
`{"name": 5, "zzz": "x"}` visited in this order, no field matches the key `zzz` in
either form, yet `mapEntity` fails with the type mismatch of the key `name`
("value of type int is not assignable to type string"), raised before `zzz` is
visited, and not with the failure of a field that was not found. -/
theorem mapEntity_fails_before_missing_field :
    FieldByName [⟨"Name", .string, .str ""⟩] (Title asciiTables "zzz") = none ∧
    FieldByName [⟨"Name", .string, .str ""⟩] (Title asciiTables (toCamelCase "zzz")) = none ∧
    mapEntity asciiTables [("name", .int 5), ("zzz", .str "x")] [⟨"Name", .string, .str ""⟩]
      = ([⟨"Name", .string, .str ""⟩], some .setNotAssignable) :=
  ⟨rfl, rfl, rfl⟩

/-- C6, amended: when the map holds a key `k` for which the record has neither a
field named `strings.Title(k)` nor a field named `strings.Title(toCamelCase(k))`,
`mapEntity` never ends normally; when the keys visited before `k` are all assigned
without a panic, it ends at `k` with the panic of package reflect for a field that
was not found, "call of reflect.Value.Set on zero Value", the record holding the
assignments made before `k`. -/
theorem mapEntity_missing_field (u : UnicodeTables) (obj : Record) (d : ConfigMap) (k : String)
    (hk : k ∈ d.map Prod.fst)
    (h1 : FieldByName obj (Title u k) = none)
    (h2 : FieldByName obj (Title u (toCamelCase k)) = none) :
    (mapEntity u d obj).2 ≠ none ∧
    ∀ pre post val, d.map Prod.fst = pre ++ k :: post →
      mapEntityLoop u d pre obj = (val, none) →
      mapEntity u d obj = (val, some .setOnZeroValue) := by
  refine ⟨mapEntityLoop_missing u d k _ obj hk h1 h2, ?_⟩
  intro pre post val hsplit hpre
  obtain ⟨i1, i2⟩ := mapEntityLoop_append u d (k :: post) pre obj val hpre
  rw [mapEntity, hsplit, i1]
  simp only [mapEntityLoop,
    mapEntityField_missing u d val k ((i2 _).mpr h1) ((i2 _).mpr h2)]

theorem mapEntity_missing_field_witness :
    "zzz" ∈ ([("name", .str "m1"), ("zzz", .str "x")] : ConfigMap).map Prod.fst ∧
    FieldByName [⟨"Name", .string, .str ""⟩] (Title asciiTables "zzz") = none ∧
    FieldByName [⟨"Name", .string, .str ""⟩] (Title asciiTables (toCamelCase "zzz")) = none ∧
    ((mapEntity asciiTables [("name", .str "m1"), ("zzz", .str "x")]
        [⟨"Name", .string, .str ""⟩]).2 ≠ none ∧
      ∀ pre post val,
        ([("name", .str "m1"), ("zzz", .str "x")] : ConfigMap).map Prod.fst
          = pre ++ "zzz" :: post →
        mapEntityLoop asciiTables [("name", .str "m1"), ("zzz", .str "x")] pre
          [⟨"Name", .string, .str ""⟩] = (val, none) →
        mapEntity asciiTables [("name", .str "m1"), ("zzz", .str "x")]
          [⟨"Name", .string, .str ""⟩] = (val, some .setOnZeroValue)) ∧
    mapEntity asciiTables [("name", .str "m1"), ("zzz", .str "x")] [⟨"Name", .string, .str ""⟩]
      = ([⟨"Name", .string, .str "m1"⟩], some .setOnZeroValue) :=
  ⟨by decide, rfl, rfl,
    mapEntity_missing_field asciiTables [⟨"Name", .string, .str ""⟩]
      [("name", .str "m1"), ("zzz", .str "x")] "zzz" (by decide) rfl rfl,
    rfl⟩

/-! ## Collection adapters: lists -/

theorem listToStringSlice_map_str (l : List String) :
    listToStringSlice (l.map GoVal.str) = .ok l := by
  induction l with
  | nil => rfl
  | cons x xs ih => simp [listToStringSlice, assertString, ih]

theorem listToStringSlice_error {s : List GoVal} {p : Panic}
    (h : listToStringSlice s = .error p) : p = .typeAssertion ∧ ∃ v ∈ s, v.isString = false := by
  induction s with
  | nil => cases h
  | cons v vs ih =>
    cases v with
    | str x =>
      cases hr : listToStringSlice vs with
      | error q =>
        simp only [listToStringSlice, assertString, hr, Except.error.injEq] at h
        subst h
        obtain ⟨h1, w, hw, hws⟩ := ih hr
        exact ⟨h1, w, List.mem_cons_of_mem _ hw, hws⟩
      | ok xs => simp [listToStringSlice, assertString, hr] at h
    | bool b =>
      simp only [listToStringSlice, assertString, Except.error.injEq] at h
      exact ⟨h.symm, _, List.mem_cons_self _ _, rfl⟩
    | int n =>
      simp only [listToStringSlice, assertString, Except.error.injEq] at h
      exact ⟨h.symm, _, List.mem_cons_self _ _, rfl⟩
    | slice e xs =>
      simp only [listToStringSlice, assertString, Except.error.injEq] at h
      exact ⟨h.symm, _, List.mem_cons_self _ _, rfl⟩
    | nil =>
      simp only [listToStringSlice, assertString, Except.error.injEq] at h
      exact ⟨h.symm, _, List.mem_cons_self _ _, rfl⟩

theorem listToStringSlice_ok {s : List GoVal} {l : List String}
    (h : listToStringSlice s = .ok l) : s = l.map GoVal.str := by
  induction s generalizing l with
  | nil =>
    simp only [listToStringSlice, Except.ok.injEq] at h
    subst h
    rfl
  | cons v vs ih =>
    cases v with
    | str x =>
      cases hr : listToStringSlice vs with
      | error q => simp [listToStringSlice, assertString, hr] at h
      | ok xs =>
        simp only [listToStringSlice, assertString, hr, Except.ok.injEq] at h
        subst h
        rw [ih hr]
        rfl
    | bool b => simp [listToStringSlice, assertString] at h
    | int n => simp [listToStringSlice, assertString] at h
    | slice e xs => simp [listToStringSlice, assertString] at h
    | nil => simp [listToStringSlice, assertString] at h

/-- C11: `makeStringList` wraps each string as a dynamic value, keeping length and
order, and `listToStringSlice` gives the strings of an all-string dynamic list
back, in the same order: `listToStringSlice(makeStringList(l)) = l`. -/
theorem listToStringSlice_makeStringList (l : List String) :
    (makeStringList l).length = l.length ∧
    (∀ i : Nat, (makeStringList l)[i]? = (l[i]?).map GoVal.str) ∧
    listToStringSlice (makeStringList l) = .ok l ∧
    listToStringSlice [.str "x", .str "y"] = .ok ["x", "y"] := by
  refine ⟨by simp [makeStringList], fun i => by simp [makeStringList],
    listToStringSlice_map_str l, rfl⟩

/-- C12: `listToStringSlice` fails, with the panic of the type assertion
`v.(string)`, exactly when its list holds at least one element that is not
string-typed; when every element is a string it returns the strings. -/
theorem listToStringSlice_fails_iff (s : List GoVal) :
    (listToStringSlice s = .error .typeAssertion ↔ ∃ v ∈ s, v.isString = false) ∧
    (returnsToCaller (listToStringSlice s) = true ↔ ∀ v ∈ s, v.isString = true) ∧
    (listToStringSlice s = .error .typeAssertion ∨
      ∃ l, listToStringSlice s = .ok l ∧ s = l.map GoVal.str) := by
  have hmap : ∀ l : List String, ∀ v ∈ l.map GoVal.str, v.isString = true := by
    intro l v hv
    obtain ⟨x, _, rfl⟩ := List.mem_map.mp hv
    rfl
  cases hr : listToStringSlice s with
  | error p =>
    obtain ⟨hp, w, hw, hws⟩ := listToStringSlice_error hr
    subst hp
    refine ⟨⟨fun _ => ⟨w, hw, hws⟩, fun _ => rfl⟩, ⟨fun h => (by cases h), fun h => ?_⟩,
      Or.inl rfl⟩
    rw [h w hw] at hws
    cases hws
  | ok l =>
    have hs := listToStringSlice_ok hr
    refine ⟨⟨fun h => (by cases h), ?_⟩, ⟨fun _ => (by rw [hs]; exact hmap l), fun _ => rfl⟩,
      Or.inr ⟨l, rfl, hs⟩⟩
    rintro ⟨w, hw, hws⟩
    rw [hs] at hw
    rw [hmap l w hw] at hws
    cases hws

/-! ## parseF5Identifier: the empty partition -/

theorem Index_eq_zero_iff {sep : Char} {r : List Char} {m : Nat} (h : Index sep r = some m) :
    m = 0 ↔ ∃ r', r = sep :: r' := by
  cases r with
  | nil => cases h
  | cons c cs =>
    by_cases hc : c = sep
    · subst hc
      simp only [Index, if_true, Option.some.injEq] at h
      exact ⟨fun _ => ⟨cs, rfl⟩, fun _ => h.symm⟩
    · simp only [Index, hc, if_false, Option.map_eq_some'] at h
      obtain ⟨a, _, ha⟩ := h
      constructor
      · intro hm; omega
      · rintro ⟨r', hr'⟩
        cases hr'
        exact absurd rfl hc

/-- C14, as stated, fails: `//x` starts with the separator and yet parses to the
empty partition. -/
theorem parseF5Identifier_double_slash :
    "//x".data.head? = some '/' ∧ parseF5Identifier "//x" = .ok ("", "x") ∧
      parseF5Identifier "//" = .ok ("", "") := by
  decide

/-- C14, amended: when `parseF5Identifier` returns a pair, its partition is the
empty string if and only if the input does not start with `/` or starts with
`//`. -/
theorem parseF5Identifier_partition_empty_iff (s p n : String)
    (h : parseF5Identifier s = .ok (p, n)) :
    p = "" ↔ (s.data.head? ≠ some '/' ∨ ∃ r, s.data = '/' :: '/' :: r) := by
  by_cases hs : ∃ r, s.data = '/' :: r
  · obtain ⟨r, hr⟩ := hs
    cases hi : Index '/' r with
    | none =>
      rw [parse_data_slash_none s r hr (Index_none_not_mem hi)] at h
      cases h
    | some m =>
      rw [parse_data_slash_some s r m hr hi] at h
      simp only [Except.ok.injEq, Prod.mk.injEq] at h
      obtain ⟨hp, _⟩ := h
      have hmem : '/' ∈ r := Index_some_mem hi
      have hz := Index_eq_zero_iff hi
      have hpe : p = "" ↔ m = 0 := by
        rw [← hp]
        constructor
        · intro e
          have e' := congrArg String.data e
          simp only [List.take_eq_nil_iff] at e'
          rcases e' with e' | e'
          · exact e'
          · rw [e'] at hmem
            cases hmem
        · intro e
          subst e
          rfl
      rw [hpe, hz]
      constructor
      · rintro ⟨r', rfl⟩
        exact Or.inr ⟨r', hr⟩
      · rintro (hh | ⟨r', hr'⟩)
        · rw [hr] at hh
          exact absurd rfl hh
        · rw [hr] at hr'
          cases hr'
          exact ⟨r', rfl⟩
  · have hn : ∀ r, s.data ≠ '/' :: r := fun r hr => hs ⟨r, hr⟩
    rw [parse_data_noslash s hn] at h
    simp only [Except.ok.injEq, Prod.mk.injEq] at h
    refine ⟨fun _ => Or.inl ?_, fun _ => h.1.symm⟩
    cases hd : s.data with
    | nil => simp
    | cons c cs =>
      have : c ≠ '/' := fun e => hn cs (by rw [hd, e])
      simp [this]

theorem parseF5Identifier_partition_empty_iff_witness :
    parseF5Identifier "//x" = .ok ("", "x") ∧
      (("" : String) = "" ↔
        ("//x".data.head? ≠ some '/' ∨ ∃ r, "//x".data = '/' :: '/' :: r)) :=
  ⟨by decide, parseF5Identifier_partition_empty_iff "//x" "" "x" (by decide)⟩

/-! ## mapEntity: no transaction -/

/-- C15: `mapEntity` is not all-or-nothing.  With the record `{Name string}` and the
map `{"name": "m1", "zzz": "x"}` visited in this order, the call fails at `zzz`,
for which the record has no field, after `Name` was assigned; with the record of
the round-trip example and the map `{"name": "m1", "interval": "soon"}` it fails on
the wrong type of `interval`, again after `Name` was assigned.  In both cases the
record at the point of failure differs from the one before the call and holds the
value of the earlier key. -/
theorem mapEntity_not_transactional :
    (∃ (obj : Record) (d : ConfigMap) (val : Record) (p : Panic),
      (d.map Prod.fst).Nodup ∧ mapEntity asciiTables d obj = (val, some p) ∧ val ≠ obj ∧
      d.at "name" = .str "m1" ∧
      FieldByName obj "Name" = some ⟨"Name", .string, .str ""⟩ ∧
      FieldByName val "Name" = some ⟨"Name", .string, .str "m1"⟩) ∧
    mapEntity asciiTables [("name", .str "m1"), ("zzz", .str "x")] [⟨"Name", .string, .str ""⟩]
      = ([⟨"Name", .string, .str "m1"⟩], some .setOnZeroValue) ∧
    mapEntity asciiTables [("name", .str "m1"), ("interval", .str "soon")] exampleRecord
      = ([⟨"Name", .string, .str "m1"⟩, ⟨"Interval", .int, .int 0⟩,
          ⟨"Tags", .slice .string, .slice .string []⟩], some .setNotAssignable) := by
  refine ⟨⟨[⟨"Name", .string, .str ""⟩], [("name", .str "m1"), ("zzz", .str "x")],
    [⟨"Name", .string, .str "m1"⟩], .setOnZeroValue, by decide, rfl, ?_, rfl, rfl, rfl⟩,
    rfl, rfl⟩
  intro h
  simp only [List.cons.injEq, Field.mk.injEq, GoVal.str.injEq, and_true, true_and] at h
  revert h
  decide

/-! ## Collection adapters: sets -/

theorem hash_str (x : String) : SchemaSet.hash HashString (.str x) = .ok (stringCode x) := by
  simp [SchemaSet.hash, HashString, assertString, stringCode]

theorem lookup_stringEntry_none (t : List String) (c : String) :
    (t.map stringEntry).lookup c = none ↔ c ∉ t.map stringCode := by
  induction t with
  | nil => simp
  | cons x xs ih =>
    by_cases hc : c = stringCode x
    · subst hc
      simp [stringEntry, List.lookup]
    · have hb : (c == stringCode x) = false := by simpa using hc
      simp only [List.map_cons, stringEntry, List.lookup, hb, List.mem_cons, not_or]
      simp only [stringEntry] at ih
      rw [ih]
      exact ⟨fun h => ⟨hc, h⟩, fun h => h.2⟩

theorem Add_str (t : List String) (x : String) :
    SchemaSet.Add HashString (t.map stringEntry) (.str x)
      = .ok (if stringCode x ∈ t.map stringCode then t.map stringEntry
          else (t ++ [x]).map stringEntry) := by
  simp only [SchemaSet.Add, hash_str]
  by_cases h : stringCode x ∈ t.map stringCode
  · rw [if_pos h]
    cases hl : (t.map stringEntry).lookup (stringCode x) with
    | none => exact absurd h ((lookup_stringEntry_none t _).mp hl)
    | some v => rfl
  · rw [if_neg h, (lookup_stringEntry_none t _).mpr h]
    simp [stringEntry]

theorem addAll_str (l : List String) :
    ∀ t : List String, (t.map stringCode).Nodup →
      ∃ t' : List String, SchemaSet.addAll HashString (t.map stringEntry) (l.map GoVal.str)
          = .ok (t'.map stringEntry) ∧
        (t'.map stringCode).Nodup ∧ (∀ x ∈ t', x ∈ t ∨ x ∈ l) ∧
        (∀ x, x ∈ t ∨ x ∈ l → stringCode x ∈ t'.map stringCode) := by
  induction l with
  | nil =>
    intro t ht
    refine ⟨t, rfl, ht, fun x hx => Or.inl hx, ?_⟩
    rintro x (hx | hx)
    · exact List.mem_map_of_mem _ hx
    · cases hx
  | cons y ys ih =>
    intro t ht
    by_cases h : stringCode y ∈ t.map stringCode
    · obtain ⟨t', h1, h2, h3, h4⟩ := ih t ht
      refine ⟨t', ?_, h2, ?_, ?_⟩
      · simp only [List.map_cons, SchemaSet.addAll, Add_str, if_pos h]
        exact h1
      · intro x hx
        rcases h3 x hx with hx | hx
        · exact Or.inl hx
        · exact Or.inr (List.mem_cons_of_mem _ hx)
      · rintro x (hx | hx)
        · exact h4 x (Or.inl hx)
        · rcases List.mem_cons.mp hx with rfl | hx
          · obtain ⟨z, hz, hzc⟩ := List.mem_map.mp h
            rw [← hzc]
            exact h4 z (Or.inl hz)
          · exact h4 x (Or.inr hx)
    · have ht' : ((t ++ [y]).map stringCode).Nodup := by
        rw [List.map_append, List.nodup_append]
        refine ⟨ht, by simp, ?_⟩
        intro a ha hb
        simp only [List.map_cons, List.map_nil, List.mem_singleton] at hb
        exact h (hb ▸ ha)
      obtain ⟨t', h1, h2, h3, h4⟩ := ih (t ++ [y]) ht'
      refine ⟨t', ?_, h2, ?_, ?_⟩
      · simp only [List.map_cons, SchemaSet.addAll, Add_str, if_neg h]
        exact h1
      · intro x hx
        rcases h3 x hx with hx | hx
        · rcases List.mem_append.mp hx with hx | hx
          · exact Or.inl hx
          · simp only [List.mem_singleton] at hx
            exact Or.inr (hx ▸ List.mem_cons_self _ _)
        · exact Or.inr (List.mem_cons_of_mem _ hx)
      · rintro x (hx | hx)
        · exact h4 x (Or.inl (List.mem_append_left _ hx))
        · rcases List.mem_cons.mp hx with rfl | hx
          · exact h4 x (Or.inl (List.mem_append_right _ (List.mem_singleton_self _)))
          · exact h4 x (Or.inr hx)

theorem listCode_perm (t : List String) :
    (SchemaSet.listCode (t.map stringEntry)).Perm (t.map stringCode) := by
  have : (t.map stringEntry).map Prod.fst = t.map stringCode := by
    simp [stringEntry, Function.comp_def]
  simp only [SchemaSet.listCode, this]
  exact List.perm_insertionSort _ _

theorem at_stringEntry (t : List String) (ht : (t.map stringCode).Nodup) {x : String}
    (hx : x ∈ t) : ConfigMap.at (t.map stringEntry) (stringCode x) = .str x := by
  have hk : ((t.map stringEntry).map Prod.fst).Nodup := by
    have : (t.map stringEntry).map Prod.fst = t.map stringCode := by
      simp [stringEntry, Function.comp_def]
    rw [this]
    exact ht
  exact ConfigMap.at_of_mem (t.map stringEntry) hk (stringCode x) (.str x)
    (List.mem_map.mpr ⟨x, hx, rfl⟩)

theorem List_stringEntry (t : List String) (ht : (t.map stringCode).Nodup) :
    ∃ r : List String, SchemaSet.List (t.map stringEntry) = r.map GoVal.str ∧
      r.map stringCode = SchemaSet.listCode (t.map stringEntry) ∧ ∀ y ∈ r, y ∈ t := by
  have hsub : ∀ k ∈ SchemaSet.listCode (t.map stringEntry), k ∈ t.map stringCode :=
    fun k hk => (listCode_perm t).subset hk
  simp only [SchemaSet.List]
  generalize SchemaSet.listCode (t.map stringEntry) = ks at hsub
  induction ks with
  | nil => exact ⟨[], rfl, rfl, fun y hy => by cases hy⟩
  | cons k ks ih =>
    obtain ⟨r, h1, h2, h3⟩ := ih (fun k' hk' => hsub k' (List.mem_cons_of_mem _ hk'))
    obtain ⟨x, hx, hxk⟩ := List.mem_map.mp (hsub k (List.mem_cons_self _ _))
    refine ⟨x :: r, ?_, ?_, ?_⟩
    · simp only [List.map_cons, h1, ← hxk, at_stringEntry t ht hx]
    · simp only [List.map_cons, h2, hxk]
    · intro y hy
      rcases List.mem_cons.mp hy with rfl | hy
      · exact hx
      · exact h3 y hy

theorem setRoundTrip_result (l : List String) :
    ∃ r, setRoundTrip l = .ok r ∧ (r.map stringCode).Nodup ∧ (∀ y ∈ r, y ∈ l) ∧
      ∀ x ∈ l, stringCode x ∈ r.map stringCode := by
  obtain ⟨t, h1, h2, h3, h4⟩ := addAll_str l [] (by simp)
  obtain ⟨r, g1, g2, g3⟩ := List_stringEntry t h2
  have hperm := listCode_perm t
  refine ⟨r, ?_, ?_, ?_, ?_⟩
  · simp only [List.map_nil] at h1
    simp only [setRoundTrip, makeStringSet, NewSet, h1, setToStringSlice, g1,
      listToStringSlice_map_str]
  · rw [g2]
    exact hperm.nodup_iff.mpr h2
  · intro y hy
    rcases h3 y (g3 y hy) with h | h
    · cases h
    · exact h
  · intro x hx
    rw [g2]
    exact hperm.symm.subset (h4 x (Or.inr hx))

set_option maxRecDepth 100000 in
/-- C13, as stated, fails: `plumless` and `buckeroo` have the same CRC-32 hash
code, under which `schema.Set` keeps only the item added first; the round trip of
the two distinct strings gives one string, and `buckeroo` is lost. -/
theorem setRoundTrip_hash_collision :
    stringCode "plumless" = "1306201125" ∧ stringCode "buckeroo" = "1306201125" ∧
      setRoundTrip ["plumless", "buckeroo"] = .ok ["plumless"] ∧
      "buckeroo" ∈ ["plumless", "buckeroo"] ∧ "buckeroo" ∉ ["plumless"] := by
  decide

/-- C13, amended: `setToStringSlice(makeStringSet(l))` returns a list without
duplicates whose members are strings of `l`, with exactly one string for every hash
code (`schema.HashString`) of a string of `l`, so its length is the number of
distinct hash codes in `l`; when no two distinct strings of `l` share a hash code,
its members are exactly those of `l` and its length is the number of distinct
strings of `l`.  The order is the one of the sorted hash codes. -/
theorem setRoundTrip_members (l : List String) :
    ∃ r, setRoundTrip l = .ok r ∧ r.Nodup ∧ (r.map stringCode).Nodup ∧
      (∀ y ∈ r, y ∈ l) ∧ (∀ x ∈ l, ∃ y ∈ r, stringCode y = stringCode x) ∧
      r.length = ((l.map stringCode).dedup).length ∧
      ((∀ x ∈ l, ∀ y ∈ l, stringCode x = stringCode y → x = y) →
        (∀ x, x ∈ r ↔ x ∈ l) ∧ r.length = l.dedup.length) := by
  obtain ⟨r, h1, h2, h3, h4⟩ := setRoundTrip_result l
  have hnd : r.Nodup := List.Nodup.of_map _ h2
  refine ⟨r, h1, hnd, h2, h3, ?_, ?_, ?_⟩
  · intro x hx
    obtain ⟨y, hy, hyc⟩ := List.mem_map.mp (h4 x hx)
    exact ⟨y, hy, hyc⟩
  · have hp : (r.map stringCode).Perm ((l.map stringCode).dedup) := by
      refine (List.perm_ext_iff_of_nodup h2 (List.nodup_dedup _)).mpr ?_
      intro c
      rw [List.mem_dedup]
      constructor
      · intro hc
        obtain ⟨y, hy, rfl⟩ := List.mem_map.mp hc
        exact List.mem_map_of_mem _ (h3 y hy)
      · intro hc
        obtain ⟨x, hx, rfl⟩ := List.mem_map.mp hc
        exact h4 x hx
    have := hp.length_eq
    simpa using this
  · intro hinj
    have hmem : ∀ x, x ∈ r ↔ x ∈ l := by
      intro x
      constructor
      · exact h3 x
      · intro hx
        obtain ⟨y, hy, hyc⟩ := List.mem_map.mp (h4 x hx)
        have : y = x := hinj y (h3 y hy) x hx hyc
        exact this ▸ hy
    refine ⟨hmem, ?_⟩
    have hp : r.Perm l.dedup := by
      refine (List.perm_ext_iff_of_nodup hnd (List.nodup_dedup _)).mpr ?_
      intro x
      rw [List.mem_dedup]
      exact hmem x
    exact hp.length_eq

/-- The example of the specification: `["a","b","a"]` comes back with the two
members `a` and `b`. -/
theorem setRoundTrip_example : setRoundTrip ["a", "b", "a"] = .ok ["b", "a"] := by
  decide

/-! ## mapEntity: frame -/

theorem store_getElem? (val : Record) (n : String) (x : GoVal) (i : Nat) (f : Field)
    (hf : val[i]? = some f) (hn : f.name ≠ n) : (store val n x)[i]? = some f := by
  induction val generalizing i with
  | nil => simp at hf
  | cons g gs ih =>
    by_cases hg : g.name = n
    · cases i with
      | zero =>
        simp only [List.getElem?_cons_zero, Option.some.injEq] at hf
        subst hf
        exact absurd hg hn
      | succ j =>
        simp only [store, hg, if_true, List.getElem?_cons_succ] at hf ⊢
        exact hf
    · cases i with
      | zero =>
        simp only [store, hg, if_false, List.getElem?_cons_zero] at hf ⊢
        exact hf
      | succ j =>
        simp only [store, hg, if_false, List.getElem?_cons_succ] at hf ⊢
        exact ih j hf

theorem fieldSet_ok_name {u : UnicodeTables} {val val' : Record} {g : Option Field} {x : GoVal}
    {name : String} (hg : ∀ f, g = some f → f.name = name)
    (h : fieldSet u val g x = .ok val') : ∃ y, val' = store val name y := by
  unfold fieldSet at h
  split at h
  · cases h
  · rename_i f hma
    have hgf : g = some f := by
      unfold mustBeAssignable at hma
      split at hma
      · cases hma
      · split at hma
        · cases hma
          rfl
        · cases hma
    split at h
    · cases h
    · cases h
      exact ⟨_, by rw [hg f hgf]⟩

theorem mapEntityField_ok_name {u : UnicodeTables} {d : ConfigMap} {val val' : Record}
    {k : String} (h : mapEntityField u d val k = .ok val') :
    ∃ n y, val' = store val n y ∧ (n = Title u k ∨ n = Title u (toCamelCase k)) := by
  unfold mapEntityField at h
  split at h
  · rename_i f hf
    have hname : ∀ f', some f = some f' → f'.name = Title u k := by
      intro f' e
      cases e
      exact FieldByName_name hf
    split at h
    · split at h
      · split at h
        · cases h
        · obtain ⟨y, hy⟩ := fieldSet_ok_name hname h
          exact ⟨_, y, hy, Or.inl rfl⟩
      · cases h
    · obtain ⟨y, hy⟩ := fieldSet_ok_name hname h
      exact ⟨_, y, hy, Or.inl rfl⟩
  · obtain ⟨y, hy⟩ := fieldSet_ok_name (fun f hf => FieldByName_name hf) h
    exact ⟨_, y, hy, Or.inr rfl⟩

theorem mapEntityLoop_frame (u : UnicodeTables) (d : ConfigMap) (i : Nat) (f : Field) :
    ∀ (ks : List String) (val : Record), val[i]? = some f →
      (∀ k ∈ ks, f.name ≠ Title u k ∧ f.name ≠ Title u (toCamelCase k)) →
      (mapEntityLoop u d ks val).1[i]? = some f := by
  intro ks
  induction ks with
  | nil => intro val hf _; exact hf
  | cons k ks ih =>
    intro val hf hn
    cases hstep : mapEntityField u d val k with
    | error p =>
      simp only [mapEntityLoop, hstep]
      exact hf
    | ok val' =>
      simp only [mapEntityLoop, hstep]
      obtain ⟨n, y, rfl, hny⟩ := mapEntityField_ok_name hstep
      have hk := hn k (List.mem_cons_self _ _)
      have hne : f.name ≠ n := by
        rcases hny with rfl | rfl
        · exact hk.1
        · exact hk.2
      exact ih _ (store_getElem? val n y i f hf hne)
        (fun k' hk' => hn k' (List.mem_cons_of_mem _ hk'))

/-- C17: `mapEntity` changes only the fields its keys resolve to.  A field of the
record whose name is, for every key `k` of the map, neither `strings.Title(k)` (the
name looked up first) nor `strings.Title(toCamelCase(k))` (the name looked up
second) holds the same value, at the same place, when the call ends; this also
holds for the record as it stands when the call ends in a panic.  With an empty
map the record is unchanged. -/
theorem mapEntity_frame (u : UnicodeTables) (obj : Record) (d : ConfigMap) (i : Nat)
    (f : Field) (hf : obj[i]? = some f)
    (hn : ∀ kv ∈ d, f.name ≠ Title u kv.1 ∧ f.name ≠ Title u (toCamelCase kv.1)) :
    (mapEntity u d obj).1[i]? = some f ∧ mapEntity u [] obj = (obj, none) := by
  refine ⟨mapEntityLoop_frame u d i f _ obj hf ?_, rfl⟩
  intro k hk
  obtain ⟨kv, hkv, rfl⟩ := List.mem_map.mp hk
  exact hn kv hkv

theorem mapEntity_frame_witness :
    exampleRecord[1]? = some ⟨"Interval", .int, .int 0⟩ ∧
    (∀ kv ∈ ([("name", .str "m1"), ("tags", .slice .iface [.str "a"])] : ConfigMap),
      "Interval" ≠ Title asciiTables kv.1 ∧
        "Interval" ≠ Title asciiTables (toCamelCase kv.1)) ∧
    ((mapEntity asciiTables [("name", .str "m1"), ("tags", .slice .iface [.str "a"])]
        exampleRecord).1[1]? = some ⟨"Interval", .int, .int 0⟩ ∧
      mapEntity asciiTables [] exampleRecord = (exampleRecord, none)) ∧
    mapEntity asciiTables [("name", .str "m1"), ("tags", .slice .iface [.str "a"])]
        exampleRecord
      = ([⟨"Name", .string, .str "m1"⟩, ⟨"Interval", .int, .int 0⟩,
          ⟨"Tags", .slice .string, .slice .string [.str "a"]⟩], none) :=
  have hn : ∀ kv ∈ ([("name", .str "m1"), ("tags", .slice .iface [.str "a"])] : ConfigMap),
      "Interval" ≠ Title asciiTables kv.1 ∧
        "Interval" ≠ Title asciiTables (toCamelCase kv.1) := by
    intro kv hkv
    simp only [List.mem_cons, List.mem_singleton, List.not_mem_nil, or_false] at hkv
    rcases hkv with rfl | rfl <;> exact ⟨by decide, by decide⟩
  ⟨rfl, hn,
    mapEntity_frame asciiTables exampleRecord
      [("name", .str "m1"), ("tags", .slice .iface [.str "a"])] 1
      ⟨"Interval", .int, .int 0⟩ rfl hn,
    rfl⟩

/-! ## mapEntity: order of the keys -/

theorem shapeOf_store (val : Record) (n : String) (x : GoVal) :
    shapeOf (store val n x) = shapeOf val := by
  funext m
  simp only [shapeOf, FieldByName_store]
  by_cases h : n = m
  · subst h
    simp only [if_true, Option.map_map]
    rfl
  · simp only [h, if_false]

theorem fieldSet_eq_setTarget (u : UnicodeTables) (val : Record) (g : Option Field) (x : GoVal) :
    fieldSet u val g x =
      match setTarget u (g.map (fun f => (f.name, f.type))) x with
      | .error p => .error p
      | .ok ny => .ok (store val ny.1 ny.2) := by
  cases g with
  | none => rfl
  | some f =>
    simp only [fieldSet, mustBeAssignable, Option.map_some', setTarget]
    by_cases he : isExported u f.name = true
    · simp only [he, if_true]
      cases assignTo f.type x <;> rfl
    · simp only [he]
      rfl

theorem mapEntityField_eq_fieldTarget (u : UnicodeTables) (d : ConfigMap) (val : Record)
    (k : String) :
    mapEntityField u d val k =
      match fieldTarget u d (shapeOf val) k with
      | .error p => .error p
      | .ok ny => .ok (store val ny.1 ny.2) := by
  unfold mapEntityField fieldTarget
  cases hf : FieldByName val (Title u k) with
  | none =>
    simp only [shapeOf, hf, Option.map_none']
    exact fieldSet_eq_setTarget u val _ _
  | some f =>
    simp only [shapeOf, hf, Option.map_some']
    cases ht : f.type with
    | slice elem =>
      simp only
      cases hv : d.at k with
      | slice e xs =>
        cases e with
        | iface =>
          simp only
          cases setElems elem xs with
          | error p => rfl
          | ok s =>
            simp only
            rw [fieldSet_eq_setTarget, Option.map_some', ht]
        | string => rfl
        | bool => rfl
        | int => rfl
        | slice e' => rfl
      | str s => rfl
      | bool b => rfl
      | int n => rfl
      | nil => rfl
    | string => simp only; rw [fieldSet_eq_setTarget, Option.map_some', ht]
    | bool => simp only; rw [fieldSet_eq_setTarget, Option.map_some', ht]
    | int => simp only; rw [fieldSet_eq_setTarget, Option.map_some', ht]
    | iface => simp only; rw [fieldSet_eq_setTarget, Option.map_some', ht]

theorem setTarget_name {u : UnicodeTables} {sh : Option (String × GoType)} {x : GoVal}
    {ny : String × GoVal} (h : setTarget u sh x = .ok ny) : ∃ t, sh = some (ny.1, t) := by
  cases sh with
  | none => cases h
  | some nt =>
    obtain ⟨n, t⟩ := nt
    simp only [setTarget] at h
    split at h
    · split at h
      · cases h
      · cases h
        exact ⟨t, rfl⟩
    · cases h

theorem shapeOf_name {val : Record} {m n : String} {t : GoType}
    (h : shapeOf val m = some (n, t)) : n = m := by
  simp only [shapeOf, Option.map_eq_some'] at h
  obtain ⟨f, hf, hft⟩ := h
  cases hft
  exact FieldByName_name hf

theorem fieldTarget_name {u : UnicodeTables} {d : ConfigMap} {val : Record} {k : String}
    {ny : String × GoVal} (h : fieldTarget u d (shapeOf val) k = .ok ny) :
    ny.1 = resolvedName u val k := by
  unfold fieldTarget at h
  cases hs : shapeOf val (Title u k) with
  | none =>
    have hf : FieldByName val (Title u k) = none := by
      simpa [shapeOf] using hs
    simp only [hs] at h
    obtain ⟨t, ht⟩ := setTarget_name h
    simp only [resolvedName, hf]
    exact shapeOf_name ht
  | some nt =>
    obtain ⟨n, t⟩ := nt
    have hn : n = Title u k := shapeOf_name hs
    have hf : ∃ f, FieldByName val (Title u k) = some f := by
      simp only [shapeOf, Option.map_eq_some'] at hs
      obtain ⟨f, hf, _⟩ := hs
      exact ⟨f, hf⟩
    obtain ⟨f, hf⟩ := hf
    have hres : resolvedName u val k = Title u k := by simp only [resolvedName, hf]
    rw [hres, ← hn]
    simp only [hs] at h
    split at h
    · split at h
      · split at h
        · cases h
        · obtain ⟨t', ht'⟩ := setTarget_name h
          cases ht'
          rfl
      · cases h
    · obtain ⟨t', ht'⟩ := setTarget_name h
      cases ht'
      rfl

theorem store_comm (val : Record) {n m : String} (x y : GoVal) (h : n ≠ m) :
    store (store val n x) m y = store (store val m y) n x := by
  induction val with
  | nil => rfl
  | cons f fs ih =>
    by_cases hn : f.name = n
    · have hm : ¬ f.name = m := fun e => h (hn ▸ e)
      simp [store, hn, hm, h]
    · by_cases hm : f.name = m
      · simp [store, hn, hm, Ne.symm h]
      · simp [store, hn, hm, ih]

theorem ConfigMap.at_of_not_mem (d : ConfigMap) (k : String) (h : k ∉ d.map Prod.fst) :
    d.at k = .nil := by
  induction d with
  | nil => rfl
  | cons e es ih =>
    obtain ⟨k', v'⟩ := e
    simp only [List.map_cons, List.mem_cons, not_or] at h
    have hb : (k == k') = false := by simpa using h.1
    have := ih h.2
    simp only [ConfigMap.at, List.lookup, hb] at this ⊢
    exact this

theorem ConfigMap.at_perm {d₁ d₂ : ConfigMap} (hp : d₁.Perm d₂)
    (hk : (d₁.map Prod.fst).Nodup) (k : String) : d₁.at k = d₂.at k := by
  have hk2 : (d₂.map Prod.fst).Nodup := (hp.map Prod.fst).nodup_iff.mp hk
  by_cases h : k ∈ d₁.map Prod.fst
  · obtain ⟨kv, hkv, rfl⟩ := List.mem_map.mp h
    rw [d₁.at_of_mem hk kv.1 kv.2 hkv, d₂.at_of_mem hk2 kv.1 kv.2 (hp.subset hkv)]
  · have h2 : k ∉ d₂.map Prod.fst := fun hm => h ((hp.map Prod.fst).symm.subset hm)
    rw [d₁.at_of_not_mem k h, d₂.at_of_not_mem k h2]

theorem fieldTarget_perm {d₁ d₂ : ConfigMap} (hp : d₁.Perm d₂)
    (hk : (d₁.map Prod.fst).Nodup) (u : UnicodeTables) (sh : String → Option (String × GoType))
    (k : String) : fieldTarget u d₁ sh k = fieldTarget u d₂ sh k := by
  simp only [fieldTarget, ConfigMap.at_perm hp hk k]

theorem mapEntityLoop_targets (u : UnicodeTables) (d : ConfigMap)
    (sh : String → Option (String × GoType)) :
    ∀ (ks : List String) (val : Record), shapeOf val = sh →
      (∀ k ∈ ks, ∃ ny, fieldTarget u d sh k = .ok ny) →
      mapEntityLoop u d ks val =
        ((ks.filterMap (fun k => (fieldTarget u d sh k).toOption)).foldl
          (fun v ny => store v ny.1 ny.2) val, none) := by
  intro ks
  induction ks with
  | nil => intro val _ _; rfl
  | cons k ks ih =>
    intro val hsh hall
    obtain ⟨ny, hny⟩ := hall k (List.mem_cons_self _ _)
    have hstep : mapEntityField u d val k = .ok (store val ny.1 ny.2) := by
      rw [mapEntityField_eq_fieldTarget, hsh, hny]
    simp only [mapEntityLoop, hstep, List.filterMap_cons, hny, Except.toOption, List.foldl_cons]
    exact ih _ (by rw [shapeOf_store, hsh]) (fun k' hk' => hall k' (List.mem_cons_of_mem _ hk'))

theorem mapEntityLoop_fails (u : UnicodeTables) (d : ConfigMap)
    (sh : String → Option (String × GoType)) :
    ∀ (ks : List String) (val : Record), shapeOf val = sh →
      (∃ k ∈ ks, ∃ p, fieldTarget u d sh k = .error p) →
      (mapEntityLoop u d ks val).2 ≠ none := by
  intro ks
  induction ks with
  | nil =>
    rintro val _ ⟨k, hk, _⟩
    cases hk
  | cons k ks ih =>
    rintro val hsh ⟨k', hk', p, hp⟩
    cases hny : fieldTarget u d sh k with
    | error q =>
      have hstep : mapEntityField u d val k = .error q := by
        rw [mapEntityField_eq_fieldTarget, hsh, hny]
      simp [mapEntityLoop, hstep]
    | ok ny =>
      have hstep : mapEntityField u d val k = .ok (store val ny.1 ny.2) := by
        rw [mapEntityField_eq_fieldTarget, hsh, hny]
      simp only [mapEntityLoop, hstep]
      have hmem : k' ∈ ks := by
        rcases List.mem_cons.mp hk' with rfl | h
        · rw [hny] at hp
          cases hp
        · exact h
      exact ih _ (by rw [shapeOf_store, hsh]) ⟨k', hmem, p, hp⟩

/-- C18: the result of `mapEntity` does not depend on the order in which the keys
are visited.  For a map with distinct keys that resolve to distinct field names of
the record, two visiting orders (two permutations of the entries) either both end
in a panic or both end normally with the same record. -/
theorem mapEntity_order_independent (u : UnicodeTables) (obj : Record) (d₁ d₂ : ConfigMap)
    (hp : d₁.Perm d₂) (hk : (d₁.map Prod.fst).Nodup)
    (hr : (d₁.map (fun kv => resolvedName u obj kv.1)).Nodup) :
    ((mapEntity u d₁ obj).2 ≠ none ∧ (mapEntity u d₂ obj).2 ≠ none) ∨
    ((mapEntity u d₁ obj).2 = none ∧ (mapEntity u d₂ obj).2 = none ∧
      (mapEntity u d₁ obj).1 = (mapEntity u d₂ obj).1) := by
  have hkeys : (d₁.map Prod.fst).Perm (d₂.map Prod.fst) := hp.map Prod.fst
  have hinj : ∀ k ∈ d₁.map Prod.fst, ∀ k' ∈ d₁.map Prod.fst,
      resolvedName u obj k = resolvedName u obj k' → k = k' := by
    have : ((d₁.map Prod.fst).map (resolvedName u obj)).Nodup := by
      rw [List.map_map]
      exact hr
    exact List.inj_on_of_nodup_map this
  by_cases hall : ∀ k ∈ d₁.map Prod.fst, ∃ ny, fieldTarget u d₁ (shapeOf obj) k = .ok ny
  · right
    have hall2 : ∀ k ∈ d₂.map Prod.fst, ∃ ny, fieldTarget u d₂ (shapeOf obj) k = .ok ny := by
      intro k hk2
      rw [← fieldTarget_perm hp hk]
      exact hall k (hkeys.symm.subset hk2)
    have e1 := mapEntityLoop_targets u d₁ (shapeOf obj) _ obj rfl hall
    have e2 := mapEntityLoop_targets u d₂ (shapeOf obj) _ obj rfl hall2
    have hfun : (fun k => (fieldTarget u d₂ (shapeOf obj) k).toOption)
        = (fun k => (fieldTarget u d₁ (shapeOf obj) k).toOption) := by
      funext k
      rw [fieldTarget_perm hp hk]
    rw [hfun] at e2
    simp only [mapEntity, e1, e2, true_and]
    apply List.Perm.foldl_eq' (hkeys.filterMap _)
    intro x hx y hy z
    obtain ⟨kx, hkx, hx'⟩ := List.mem_filterMap.mp hx
    obtain ⟨ky, hky, hy'⟩ := List.mem_filterMap.mp hy
    have tx : fieldTarget u d₁ (shapeOf obj) kx = .ok x := by
      cases h : fieldTarget u d₁ (shapeOf obj) kx with
      | error p => rw [h] at hx'; cases hx'
      | ok w =>
        rw [h] at hx'
        simp only [Except.toOption, Option.some.injEq] at hx'
        rw [hx']
    have ty : fieldTarget u d₁ (shapeOf obj) ky = .ok y := by
      cases h : fieldTarget u d₁ (shapeOf obj) ky with
      | error p => rw [h] at hy'; cases hy'
      | ok w =>
        rw [h] at hy'
        simp only [Except.toOption, Option.some.injEq] at hy'
        rw [hy']
    by_cases hxy : x.1 = y.1
    · have hkk : kx = ky := by
        apply hinj kx hkx ky hky
        rw [← fieldTarget_name tx, ← fieldTarget_name ty, hxy]
      subst hkk
      rw [tx] at ty
      cases ty
      rfl
    · exact store_comm z x.2 y.2 hxy
  · left
    have hex : ∃ k ∈ d₁.map Prod.fst, ∃ p, fieldTarget u d₁ (shapeOf obj) k = .error p := by
      by_contra hcon
      apply hall
      intro k hk1
      cases h : fieldTarget u d₁ (shapeOf obj) k with
      | ok ny => exact ⟨ny, rfl⟩
      | error p => exact absurd ⟨k, hk1, p, h⟩ hcon
    obtain ⟨k, hk1, p, hkp⟩ := hex
    refine ⟨mapEntityLoop_fails u d₁ (shapeOf obj) _ obj rfl ⟨k, hk1, p, hkp⟩, ?_⟩
    exact mapEntityLoop_fails u d₂ (shapeOf obj) _ obj rfl
      ⟨k, hkeys.subset hk1, p, by rw [← fieldTarget_perm hp hk]; exact hkp⟩

theorem mapEntity_order_independent_witness :
    List.Perm ([("name", .str "m1"), ("interval", .int 5)] : ConfigMap)
      [("interval", .int 5), ("name", .str "m1")] ∧
    (([("name", .str "m1"), ("interval", .int 5)] : ConfigMap).map Prod.fst).Nodup ∧
    (([("name", .str "m1"), ("interval", .int 5)] : ConfigMap).map
      (fun kv => resolvedName asciiTables exampleRecord kv.1)).Nodup ∧
    (((mapEntity asciiTables [("name", .str "m1"), ("interval", .int 5)] exampleRecord).2 ≠ none ∧
        (mapEntity asciiTables [("interval", .int 5), ("name", .str "m1")] exampleRecord).2
          ≠ none) ∨
      ((mapEntity asciiTables [("name", .str "m1"), ("interval", .int 5)] exampleRecord).2 = none ∧
        (mapEntity asciiTables [("interval", .int 5), ("name", .str "m1")] exampleRecord).2
          = none ∧
        (mapEntity asciiTables [("name", .str "m1"), ("interval", .int 5)] exampleRecord).1
          = (mapEntity asciiTables [("interval", .int 5), ("name", .str "m1")]
              exampleRecord).1)) ∧
    mapEntity asciiTables [("interval", .int 5), ("name", .str "m1")] exampleRecord
      = ([⟨"Name", .string, .str "m1"⟩, ⟨"Interval", .int, .int 5⟩,
          ⟨"Tags", .slice .string, .slice .string []⟩], none) :=
  have hp : List.Perm ([("name", .str "m1"), ("interval", .int 5)] : ConfigMap)
      [("interval", .int 5), ("name", .str "m1")] := List.Perm.swap _ _ _
  ⟨hp, by decide, by decide,
    mapEntity_order_independent asciiTables exampleRecord _ _ hp (by decide) (by decide), rfl⟩

/-! ## Lemmas: round trips of the case converters -/

theorem upper_facts (c : Char) (h : isAsciiUpper c = true) :
    isAsciiLower c = false ∧ isAsciiDigit c = false ∧ c ≠ '\n' ∧ c ≠ '_' ∧
      isAsciiLower c.toLower = true ∧ c.toLower.toUpper = c := by
  have hc : c.toNat < 128 := isAsciiUpper_toNat h
  have key : ∀ n : Fin 128, isAsciiUpper (Char.ofNat n) = true →
      isAsciiLower (Char.ofNat n) = false ∧ isAsciiDigit (Char.ofNat n) = false ∧
      Char.ofNat n ≠ '\n' ∧ Char.ofNat n ≠ '_' ∧
      isAsciiLower (Char.ofNat n).toLower = true ∧
      (Char.ofNat n).toLower.toUpper = Char.ofNat n := by decide
  exact ascii_forall (fun c => isAsciiUpper c = true →
      isAsciiLower c = false ∧ isAsciiDigit c = false ∧ c ≠ '\n' ∧ c ≠ '_' ∧
      isAsciiLower c.toLower = true ∧ c.toLower.toUpper = c) key c hc h

theorem toLower_of_lower (c : Char) (h : isAsciiLower c = true) : c.toLower = c := by
  have hc : c.toNat < 128 := (lower_facts c h).1
  have key : ∀ n : Fin 128, isAsciiLower (Char.ofNat n) = true →
      (Char.ofNat n).toLower = Char.ofNat n := by decide
  exact ascii_forall (fun c => isAsciiLower c = true → c.toLower = c) key c hc h

theorem map_toLower_of_lower (l : List Char) (h : ∀ c ∈ l, isAsciiLower c = true) :
    l.map Char.toLower = l := by
  induction l with
  | nil => rfl
  | cons c cs ih =>
    rw [List.map_cons, toLower_of_lower c (h c (List.mem_cons_self _ _)),
      ih (fun x hx => h x (List.mem_cons_of_mem _ hx))]

theorem firstCap_short (flag : Bool) (l : List Char) (h : l.length < 3) :
    firstCapReplaceAll flag l = l := by
  match l, h with
  | [], _ => simp [firstCapReplaceAll]
  | [_], _ => simp [firstCapReplaceAll]
  | [_, _], _ => simp [firstCapReplaceAll]
  | _ :: _ :: _ :: _, h => simp at h; omega

theorem firstCap_run (m : List Char) (hm : ∀ c ∈ m, isAsciiLower c = true) (T : List Char) :
    firstCapReplaceAll true (m ++ T) = m ++ firstCapReplaceAll true T := by
  induction m with
  | nil => rfl
  | cons c cs ih =>
    have hc := hm c (List.mem_cons_self _ _)
    have ih' := ih (fun x hx => hm x (List.mem_cons_of_mem _ hx))
    cases hr : cs ++ T with
    | nil =>
      have hcs : cs = [] := (List.append_eq_nil.mp hr).1
      have hT : T = [] := (List.append_eq_nil.mp hr).2
      subst hcs hT
      simp [firstCapReplaceAll]
    | cons d r =>
      cases r with
      | nil =>
        have hlen : (cs ++ T).length = 1 := by rw [hr]; rfl
        rw [List.cons_append, hr, firstCap_short true [c, d] (by simp)]
        rw [List.length_append] at hlen
        have hT : firstCapReplaceAll true T = T := firstCap_short true T (by omega)
        rw [hT, List.cons_append, hr]
      | cons e r' =>
        rw [List.cons_append, hr, firstCapReplaceAll]
        simp only [hc, Bool.and_self, if_true]
        rw [← hr, ih']
        rfl

theorem firstCap_to_boundary (l : List Char) (hl : ∀ c ∈ l, isAsciiLower c = true)
    (x U e : Char) (R : List Char) (hx : isAsciiLower x = true) (hU : isAsciiUpper U = true)
    (he : isAsciiLower e = true) :
    firstCapReplaceAll false (l ++ x :: U :: e :: R)
      = l ++ x :: '_' :: U :: e :: firstCapReplaceAll true R := by
  have hxn : x ≠ '\n' := by
    rintro rfl
    revert hx
    decide
  induction l with
  | nil =>
    simp only [List.nil_append]
    rw [firstCapReplaceAll]
    simp [hxn, hU, he]
  | cons c cs ih =>
    have ih' := ih (fun y hy => hl y (List.mem_cons_of_mem _ hy))
    have hnext : ∃ d r, cs ++ x :: U :: e :: R = d :: r ∧ isAsciiLower d = true ∧
        ∃ e' r', r = e' :: r' := by
      cases cs with
      | nil => exact ⟨x, U :: e :: R, rfl, hx, U, e :: R, rfl⟩
      | cons d cs' =>
        refine ⟨d, cs' ++ x :: U :: e :: R, rfl,
          hl d (List.mem_cons_of_mem _ (List.mem_cons_self _ _)), ?_⟩
        cases cs' with
        | nil => exact ⟨x, U :: e :: R, rfl⟩
        | cons e' cs'' => exact ⟨e', cs'' ++ x :: U :: e :: R, rfl⟩
    obtain ⟨d, r, hdr, hd, e', r', rfl⟩ := hnext
    have hdu : isAsciiUpper d = false := (lower_facts d hd).2.2.2.2.2
    rw [List.cons_append, hdr, firstCapReplaceAll]
    simp only [Bool.false_and, hdu, Bool.and_false, Bool.false_eq_true, if_false]
    rw [← hdr, ih']
    rfl

theorem firstCap_id_of_lower (flag : Bool) (c : Char) (l : List Char)
    (hl : ∀ x ∈ l, isAsciiLower x = true) : firstCapReplaceAll flag (c :: l) = c :: l := by
  induction l generalizing flag c with
  | nil => simp [firstCapReplaceAll]
  | cons d ds ih =>
    have hd := hl d (List.mem_cons_self _ _)
    have hdu : isAsciiUpper d = false := (lower_facts d hd).2.2.2.2.2
    have ih' := fun flag => ih flag d (fun x hx => hl x (List.mem_cons_of_mem _ hx))
    cases ds with
    | nil => simp [firstCapReplaceAll]
    | cons e es =>
      rw [firstCapReplaceAll]
      split
      · rw [ih' true]
      · simp only [hdu, Bool.and_false, Bool.false_and, Bool.false_eq_true, if_false]
        rw [ih' false]

theorem allCap_id_of_lower (c : Char) (l : List Char)
    (hl : ∀ x ∈ l, isAsciiLower x = true) : allCapReplaceAll (c :: l) = c :: l := by
  induction l generalizing c with
  | nil => simp [allCapReplaceAll]
  | cons d ds ih =>
    have hd := hl d (List.mem_cons_self _ _)
    have hdu : isAsciiUpper d = false := (lower_facts d hd).2.2.2.2.2
    rw [allCap_cons_of_next_not c d ds hdu, ih d (fun x hx => hl x (List.mem_cons_of_mem _ hx))]

theorem intercalate_cons_cons (w v : List Char) (ws : List (List Char)) :
    List.intercalate ['_'] (w :: v :: ws) = w ++ '_' :: List.intercalate ['_'] (v :: ws) := by
  rw [intercalate_underscore_cons, intercalate_underscore_cons]
  simp

theorem intercalate_singleton (w : List Char) : List.intercalate ['_'] [w] = w := by
  rw [intercalate_underscore_cons]
  simp

theorem camelWord_last {w : List Char} (h : IsCamelWord w) :
    ∃ U l x, w = U :: (l ++ [x]) ∧ isAsciiUpper U = true ∧
      (∀ c ∈ l, isAsciiLower c = true) ∧ isAsciiLower x = true := by
  obtain ⟨U, cs, rfl, hU, hne, hl⟩ := h
  refine ⟨U, cs.dropLast, cs.getLast hne, ?_, hU, ?_, ?_⟩
  · rw [List.dropLast_append_getLast hne]
  · intro c hc
    exact hl c (List.mem_of_mem_dropLast hc)
  · exact hl _ (List.getLast_mem hne)

theorem camelWord_first {w : List Char} (h : IsCamelWord w) :
    ∃ U e m, w = U :: e :: m ∧ isAsciiUpper U = true ∧ isAsciiLower e = true ∧
      ∀ c ∈ m, isAsciiLower c = true := by
  obtain ⟨U, cs, rfl, hU, hne, hl⟩ := h
  cases cs with
  | nil => exact absurd rfl hne
  | cons e m =>
    exact ⟨U, e, m, rfl, hU, hl e (List.mem_cons_self _ _),
      fun c hc => hl c (List.mem_cons_of_mem _ hc)⟩

theorem firstCap_two_words {W₁ W₂ : List Char} (h₁ : IsCamelWord W₁) (h₂ : IsCamelWord W₂)
    (flag : Bool) (T : List Char) :
    firstCapReplaceAll flag (W₁ ++ (W₂ ++ T))
      = W₁ ++ '_' :: (W₂ ++ firstCapReplaceAll true T) := by
  obtain ⟨U₁, l, x, rfl, hU₁, hl, hx⟩ := camelWord_last h₁
  obtain ⟨U₂, e, m, rfl, hU₂, he, hm⟩ := camelWord_first h₂
  have hlist : (U₁ :: (l ++ [x])) ++ ((U₂ :: e :: m) ++ T)
      = U₁ :: (l ++ x :: U₂ :: e :: (m ++ T)) := by simp
  have hU₁l : isAsciiLower U₁ = false := (upper_facts U₁ hU₁).1
  have hnext : ∃ d r' r'', l ++ x :: U₂ :: e :: (m ++ T) = d :: r' :: r'' ∧
      isAsciiLower d = true := by
    cases l with
    | nil => exact ⟨x, U₂, e :: (m ++ T), rfl, hx⟩
    | cons d l' =>
      cases l' with
      | nil => exact ⟨d, x, U₂ :: e :: (m ++ T), rfl, hl d (List.mem_cons_self _ _)⟩
      | cons d' l'' =>
        exact ⟨d, d', l'' ++ x :: U₂ :: e :: (m ++ T), rfl, hl d (List.mem_cons_self _ _)⟩
  obtain ⟨d, r', r'', hdr, hd⟩ := hnext
  have hdu : isAsciiUpper d = false := (lower_facts d hd).2.2.2.2.2
  rw [hlist, hdr, firstCapReplaceAll]
  simp only [hU₁l, Bool.and_false, hdu, Bool.false_and, Bool.false_eq_true, if_false]
  rw [← hdr, firstCap_to_boundary l hl x U₂ e (m ++ T) hx hU₂ he, firstCap_run m hm T]
  simp

theorem allCap_camelWord {w : List Char} (h : IsCamelWord w) : allCapReplaceAll w = w := by
  obtain ⟨U, cs, rfl, _, _, hl⟩ := h
  exact allCap_id_of_lower U cs hl

theorem allCap_word_then_upper {w : List Char} (h : IsCamelWord w) (U : Char)
    (hU : isAsciiUpper U = true) (R : List Char) :
    allCapReplaceAll (w ++ U :: R) = w ++ '_' :: allCapReplaceAll (U :: R) := by
  obtain ⟨U₂, l, x, rfl, _, hl, hx⟩ := camelWord_last h
  have hxu : isAsciiUpper x = false := (lower_facts x hx).2.2.2.2.2
  have hUf := upper_facts U hU
  have hsplit : (U₂ :: (l ++ [x])) ++ U :: R = (U₂ :: l) ++ (x :: U :: R) := by simp
  rw [hsplit, allCap_append (U₂ :: l) (x :: U :: R) (by
    intro c l' hcl
    cases hcl
    exact hxu), allCap_id_of_lower U₂ l hl, allCapReplaceAll,
    if_pos (by simp [hx, hU]), allCap_cons_of_not U R (by simp [hUf.1, hUf.2.1])]
  simp

theorem snake_words : ∀ (n : Nat) (W : List (List Char)), W.length ≤ n →
    (∀ w ∈ W, IsCamelWord w) → ∀ flag : Bool,
      allCapReplaceAll (firstCapReplaceAll flag W.flatten) = List.intercalate ['_'] W := by
  intro n
  induction n with
  | zero =>
    intro W hW _ flag
    have : W = [] := List.length_eq_zero.mp (Nat.le_zero.mp hW)
    subst this
    simp [firstCapReplaceAll, allCapReplaceAll, List.intercalate]
  | succ n ih =>
    intro W hW hall flag
    match W, hW, hall with
    | [], _, _ => simp [firstCapReplaceAll, allCapReplaceAll, List.intercalate]
    | [W₁], _, hall =>
      have h₁ := hall W₁ (List.mem_cons_self _ _)
      obtain ⟨U, cs, rfl, _, _, hl⟩ := h₁
      simp only [List.flatten_cons, List.flatten_nil, List.append_nil]
      rw [firstCap_id_of_lower flag U cs hl, allCap_id_of_lower U cs hl, intercalate_singleton]
    | W₁ :: W₂ :: rest, hW, hall =>
      have h₁ := hall W₁ (List.mem_cons_self _ _)
      have h₂ := hall W₂ (List.mem_cons_of_mem _ (List.mem_cons_self _ _))
      have hrest : ∀ w ∈ rest, IsCamelWord w :=
        fun w hw => hall w (List.mem_cons_of_mem _ (List.mem_cons_of_mem _ hw))
      have hlen : rest.length ≤ n := by simp at hW; omega
      have hIH := ih rest hlen hrest true
      simp only [List.flatten_cons]
      rw [firstCap_two_words h₁ h₂ flag rest.flatten,
        allCap_append W₁ _ (by
          intro c l' hcl
          cases hcl
          decide),
        allCap_camelWord h₁, allCap_cons_of_not '_' _ (by decide), intercalate_cons_cons]
      congr 2
      match rest, hrest, hIH with
      | [], _, _ =>
        simp only [List.flatten_nil]
        rw [firstCap_short true [] (by simp), List.append_nil, allCap_camelWord h₂,
          intercalate_singleton]
      | W₃ :: rest', hrest, hIH =>
        obtain ⟨U₃, cs₃, hW₃, hU₃, _, _⟩ := hrest W₃ (List.mem_cons_self _ _)
        have hflat : (W₃ :: rest').flatten = U₃ :: (cs₃ ++ rest'.flatten) := by
          simp [hW₃]
        obtain ⟨t, ht, _⟩ := firstCap_head true U₃ (cs₃ ++ rest'.flatten)
        rw [hflat, ht] at hIH ⊢
        rw [allCap_word_then_upper h₂ U₃ hU₃ t, hIH, intercalate_cons_cons]

theorem map_intercalate_toLower (W : List (List Char)) :
    (List.intercalate ['_'] W).map Char.toLower
      = List.intercalate ['_'] (W.map (List.map Char.toLower)) := by
  cases W with
  | nil => rfl
  | cons w ws =>
    have hu : Char.toLower '_' = '_' := by decide
    rw [List.map_cons, intercalate_underscore_cons, intercalate_underscore_cons]
    simp [List.map_flatten, Function.comp_def, hu]

theorem IsCamelWord.isAlnum {w : List Char} (h : IsCamelWord w) : ∀ c ∈ w, IsAlnum c := by
  obtain ⟨U, cs, rfl, hU, _, hl⟩ := h
  intro c hc
  rcases List.mem_cons.mp hc with rfl | hc
  · exact Or.inl (isAsciiLetter_of_upper hU)
  · exact Or.inl (isAsciiLetter_of_lower (hl c hc))

theorem toSnakeCase_camelWords (u : UnicodeTables) (W : List (List Char))
    (hW : ∀ w ∈ W, IsCamelWord w) :
    toSnakeCase u (String.mk W.flatten)
      = String.mk (List.intercalate ['_'] (W.map (List.map Char.toLower))) := by
  have hal : ∀ c ∈ (String.mk W.flatten).data, IsAlnum c := by
    intro c hc
    obtain ⟨w, hw, hcw⟩ := List.mem_flatten.mp hc
    exact (hW w hw).isAlnum c hcw
  obtain ⟨_, hdata⟩ := toSnakeCase_data u (String.mk W.flatten) hal
  apply String.ext
  rw [hdata]
  simp only []
  rw [snake_words W.length W (Nat.le_refl _) hW false, map_intercalate_toLower]

theorem lower_camelWord {w : List Char} (h : IsCamelWord w) :
    IsLowerWord (w.map Char.toLower) ∧ capitalizeWord (w.map Char.toLower) = w := by
  obtain ⟨U, cs, rfl, hU, _, hl⟩ := h
  have hUf := upper_facts U hU
  rw [List.map_cons, map_toLower_of_lower cs hl]
  refine ⟨⟨by simp, ?_⟩, ?_⟩
  · intro c hc
    rcases List.mem_cons.mp hc with rfl | hc
    · exact hUf.2.2.2.2.1
    · exact hl c hc
  · simp only [capitalizeWord, hUf.2.2.2.2.2]

theorem capitalize_lowerWord {w : List Char} (h2 : 2 ≤ w.length)
    (hl : ∀ c ∈ w, isAsciiLower c = true) :
    IsCamelWord (capitalizeWord w) ∧ (capitalizeWord w).map Char.toLower = w := by
  match w, h2, hl with
  | [], h2, _ => simp at h2
  | [_], h2, _ => simp at h2
  | c :: d :: ds, _, hl =>
    have hc := lower_facts c (hl c (List.mem_cons_self _ _))
    have hrest : ∀ x ∈ d :: ds, isAsciiLower x = true :=
      fun x hx => hl x (List.mem_cons_of_mem _ hx)
    refine ⟨⟨c.toUpper, d :: ds, rfl, hc.2.1, by simp, hrest⟩, ?_⟩
    simp only [capitalizeWord, List.map_cons]
    rw [hc.2.2.2.1]
    have := map_toLower_of_lower (d :: ds) hrest
    simp only [List.map_cons] at this
    rw [this]

/-! ## The two converters: round trips -/

/-- C16: on words of ASCII lower-case letters, each at least two letters long,
joined by single underscores, `toSnakeCase` undoes `toCamelCase`; on a
concatenation of words made of one ASCII upper-case letter followed by one or more
ASCII lower-case letters, `toCamelCase` undoes `toSnakeCase`. -/
theorem case_round_trip (u : UnicodeTables) (ws cs : List (List Char))
    (hws : ∀ w ∈ ws, 2 ≤ w.length ∧ ∀ c ∈ w, isAsciiLower c = true)
    (hcs : ∀ w ∈ cs, IsCamelWord w) :
    toSnakeCase u (toCamelCase (String.mk (List.intercalate ['_'] ws)))
        = String.mk (List.intercalate ['_'] ws) ∧
      toCamelCase (toSnakeCase u (String.mk cs.flatten)) = String.mk cs.flatten := by
  constructor
  · have hlw : ∀ w ∈ ws, IsLowerWord w := by
      intro w hw
      obtain ⟨h2, hl⟩ := hws w hw
      refine ⟨?_, hl⟩
      rintro rfl
      simp at h2
    have hcamel : toCamelCase (String.mk (List.intercalate ['_'] ws))
        = String.mk (ws.map capitalizeWord).flatten := by
      simp only [toCamelCase, camelReplaceAll_words ws hlw]
    have hW : ∀ w ∈ ws.map capitalizeWord, IsCamelWord w := by
      intro w hw
      obtain ⟨v, hv, rfl⟩ := List.mem_map.mp hw
      exact (capitalize_lowerWord (hws v hv).1 (hws v hv).2).1
    rw [hcamel, toSnakeCase_camelWords u _ hW, List.map_map]
    congr 2
    rw [List.map_congr_left (g := id) (fun v hv => by
      simp only [Function.comp_apply, id]
      exact (capitalize_lowerWord (hws v hv).1 (hws v hv).2).2)]
    simp
  · rw [toSnakeCase_camelWords u cs hcs]
    have hlw : ∀ w ∈ cs.map (List.map Char.toLower), IsLowerWord w := by
      intro w hw
      obtain ⟨v, hv, rfl⟩ := List.mem_map.mp hw
      exact (lower_camelWord (hcs v hv)).1
    simp only [toCamelCase, camelReplaceAll_words _ hlw, List.map_map]
    congr 2
    rw [List.map_congr_left (g := id) (fun v hv => by
      simp only [Function.comp_apply, id]
      exact (lower_camelWord (hcs v hv)).2)]
    simp

theorem case_round_trip_witness :
    (∀ w ∈ ["time".data, "until".data, "up".data],
      2 ≤ w.length ∧ ∀ c ∈ w, isAsciiLower c = true) ∧
    (∀ w ∈ ["Time".data, "Until".data, "Up".data], IsCamelWord w) ∧
    (toSnakeCase asciiTables (toCamelCase "time_until_up") = "time_until_up" ∧
      toCamelCase (toSnakeCase asciiTables "TimeUntilUp") = "TimeUntilUp") :=
  have hws : ∀ w ∈ ["time".data, "until".data, "up".data],
      2 ≤ w.length ∧ ∀ c ∈ w, isAsciiLower c = true := by decide
  have hcs : ∀ w ∈ ["Time".data, "Until".data, "Up".data], IsCamelWord w := by
    intro w hw
    simp only [List.mem_cons, List.mem_singleton, List.not_mem_nil, or_false] at hw
    rcases hw with rfl | rfl | rfl
    · exact ⟨'T', "ime".data, rfl, by decide, by decide, by decide⟩
    · exact ⟨'U', "ntil".data, rfl, by decide, by decide, by decide⟩
    · exact ⟨'U', "p".data, rfl, by decide, by decide, by decide⟩
  ⟨hws, hcs, case_round_trip asciiTables ["time".data, "until".data, "up".data]
    ["Time".data, "Until".data, "Up".data] hws hcs⟩

end Bigippg
